import Mathlib

/-
Verification development for the asynchronous stream offload engine
(breese/iostreams, async branch).

Part I embeds the bump-arena allocator with page chaining
(allocator::impl in src/async_ostream.cpp) as a word-granular memory
model: one machine word is 8 bytes (the code statically asserts
sizeof(std::size_t) == sizeof(void*)), an address is a (page id, word
offset) pair, and a memory maps addresses to cells.  Link slots hold
either the null word or the address of the next record; a work item is
modelled abstractly by a tag plus the behaviour of its apply operation.

Part II embeds the two-page swap queue (tpd<buffer_type> in
include/boost/iostreams/async/detail/tpd.hpp) as a state machine whose
operations are the queue operations executed atomically (every mutation
in the code happens under a spin lock or a successful try-lock, and the
model notes where a try-lock of the other side is only transient).

Part III embeds the stream layer (stream::~stream, stream::impl::try_drain
in src/async_ostream.cpp) over the queue model with pages abstracted to
the list of work-item tags they hold.
-/

namespace Iostreams

/-! ## Part I: the arena allocator -/

/-- Word-granular address: page identity and word offset inside the page.
Distinct pages are distinct heap allocations, so address equality is
pointer equality. -/
structure Addr where
  pid : Nat
  off : Nat
deriving DecidableEq

/-- Behaviour of a work item when apply is invoked: run to completion,
or raise a boost::exception, a std::exception, or anything else. -/
inductive Beh
  | ok
  | boostE
  | stdE
  | otherE
deriving DecidableEq

/-- An abstract user work item: a tag identifying the value it writes to
the sink, and the behaviour of its apply. -/
structure UItem where
  tag : Nat
  beh : Beh
deriving DecidableEq

/-- A work item stored in the arena: either the page_break work item
(whose apply does exactly nothing, src/async_ostream.cpp page_break) or
a user work item. -/
inductive WItem
  | pb
  | user (u : UItem)
deriving DecidableEq

/-- Content of one memory word: the zero word (list terminator), a link
to the next record, the first word of a placement-constructed work item,
or uninitialised garbage. -/
inductive Cell
  | nilC
  | linkC (a : Addr)
  | itemC (w : WItem)
  | uninit
deriving DecidableEq

/-- Arena memory: cell stored at page id / word offset. -/
def Mem := Nat → Nat → Cell

/-- Store a cell at an address. -/
def writeMem (m : Mem) (a : Addr) (c : Cell) : Mem :=
  fun p o => if p = a.pid ∧ o = a.off then c else m p o

/-- One page of the chain: its identity and the byte size passed to the
page constructor (allocator::impl::page). -/
structure PageRec where
  pid : Nat
  sizeB : Nat
deriving DecidableEq

/-- Usable capacity of a page in words: storage_end_ is
storage_begin_ + size / sizeof(std::size_t). -/
def capW (p : PageRec) : Nat := p.sizeB / 8

/-- State of allocator::impl: the page chain from first_ to last_, the
next fresh page identity, the memory, cursor_, prev_cursor_
(NULL right after clear), the word offset of end_of_page_ inside the
last page (cursor_ and end_of_page_ always point into last_), and
last_allocated_. -/
structure AState where
  chain : List PageRec
  nextPid : Nat
  mem : Mem
  cursor : Addr
  prevCursor : Option Addr
  endOff : Nat
  lastAllocated : Option Addr

def dfltPage : PageRec := ⟨0, 0⟩

/-- The page first_ currently points at. -/
def headPage (s : AState) : PageRec := s.chain.headD dfltPage

/-- The page last_ currently points at. -/
def lastPage (s : AState) : PageRec := s.chain.getLastD dfltPage

/-- first_->storage_begin_, where the drain walk starts. -/
def startA (s : AState) : Addr := ⟨(headPage s).pid, 0⟩

/-- Words reserved by allocate(size): the code decrements size and then
advances the cursor by 1 + (size + sizeof(std::size_t) - 1) / 8 words. -/
def wordsFor (sz : Nat) : Nat := 1 + (sz - 1 + 7) / 8

/-- Byte capacity of the tail page as the code measures it:
(char*)last_->storage_end_ - (char*)last_->storage_begin_. -/
def tailCapB (s : AState) : Nat := 8 * capW (lastPage s)

/-- allocator::impl::allocate.  In-page case: remember last_allocated_,
advance cursor_, point the previous link at the new cursor and zero the
new terminator.  Otherwise allocate a fresh page of byte size
max(2 * tail capacity, 2 * (size - 1)) (size was decremented first),
chain it, and if prev_cursor_ == cursor_ (the straddling allocation is
the record itself, issued from add) placement-construct a page_break in
the old tail and link through it. -/
def alloc (sz : Nat) (s : AState) : AState × Addr :=
  let w := wordsFor sz
  if s.cursor.off + w < s.endOff then
    let newCur : Addr := ⟨s.cursor.pid, s.cursor.off + w⟩
    let m1 := match s.prevCursor with
      | some p => writeMem s.mem p (Cell.linkC newCur)
      | none => s.mem
    let m2 := writeMem m1 newCur Cell.nilC
    ({ s with mem := m2, cursor := newCur, lastAllocated := some s.cursor }, s.cursor)
  else
    let newSize := max (2 * tailCapB s) (2 * (sz - 1))
    let np : PageRec := ⟨s.nextPid, newSize⟩
    let m0 := writeMem s.mem ⟨np.pid, 0⟩ Cell.nilC
    let pbCase := s.prevCursor = some s.cursor
    let m1 := if pbCase then
        writeMem (writeMem m0 ⟨s.cursor.pid, s.cursor.off + 1⟩ (Cell.itemC WItem.pb))
          s.cursor (Cell.linkC ⟨np.pid, 0⟩)
      else m0
    let prev1 : Option Addr := if pbCase then some ⟨np.pid, 0⟩ else s.prevCursor
    let newCur : Addr := ⟨np.pid, w⟩
    let m2 := match prev1 with
      | some p => writeMem m1 p (Cell.linkC newCur)
      | none => m1
    let m3 := writeMem m2 newCur Cell.nilC
    ({ chain := s.chain ++ [np], nextPid := s.nextPid + 1, mem := m3, cursor := newCur,
       prevCursor := prev1, endOff := capW np, lastAllocated := some ⟨np.pid, 0⟩ },
     ⟨np.pid, 0⟩)

/-- allocator::impl::add followed by the placement construction of the
work item at the returned payload address (the byte after the link). -/
def add (u : UItem) (sz : Nat) (s : AState) : AState :=
  let s1 := { s with prevCursor := some s.cursor }
  let r := alloc (sz + 8) s1
  { r.1 with mem := writeMem r.1.mem ⟨r.2.pid, r.2.off + 1⟩ (Cell.itemC (WItem.user u)) }

/-- A payload allocation performed by a work-item constructor (for
example formatter<const char*> copying its bytes): a bare call of
allocator::allocate while the record added last is still in progress. -/
def allocPay (sz : Nat) (s : AState) : AState := (alloc sz s).1

/-- allocator::impl::clear: clear_contents walks the chain destroying
each work item (destruction does not change the stored words) and zeroes
the first link of first_; clear_extra_pages deletes every page before
last_, resets prev_cursor_ to NULL, cursor_ and end_of_page_ to the
retained page, and zeroes the word at the new cursor_; finally
last_allocated_ is reset. -/
def clearA (s : AState) : AState :=
  let m1 := writeMem s.mem ⟨(headPage s).pid, 0⟩ Cell.nilC
  let lp := lastPage s
  let m2 := writeMem m1 ⟨lp.pid, 0⟩ Cell.nilC
  { chain := [lp], nextPid := s.nextPid, mem := m2, cursor := ⟨lp.pid, 0⟩,
    prevCursor := none, endOff := capW lp, lastAllocated := none }

def initMem : Mem := fun _ _ => Cell.uninit

/-- The initial page: the constructor allocates
page(4096 - sizeof(std::size_t) * page_break_size_in_std_size_ts) and
sizeof(page_break) is one word (a vtable pointer), so the byte size is
4096 - 8. -/
def page0 : PageRec := ⟨0, 4096 - 8⟩

/-- allocator::impl::impl: first_ = last_ = new page(4088); clear(). -/
def mkArena : AState :=
  clearA { chain := [page0], nextPid := 1, mem := writeMem initMem ⟨0, 0⟩ Cell.nilC,
           cursor := ⟨0, 0⟩, prevCursor := none, endOff := capW page0,
           lastAllocated := none }

/-- Operations a producer performs against one arena: add a work item of
a given byte size whose constructor then performs the given payload
allocations, or clear the arena. -/
inductive AOp
  | addOp (u : UItem) (sz : Nat) (pays : List Nat)
  | clearOp
deriving DecidableEq

def stepA (s : AState) (op : AOp) : AState :=
  match op with
  | .addOp u sz pays => pays.foldl (fun t p => allocPay p t) (add u sz s)
  | .clearOp => clearA s

def runA (ops : List AOp) : AState := ops.foldl stepA mkArena

/-- Well-formed operation: allocate asserts 0 != size, so every payload
allocation passes a positive byte count. -/
def wfOp : AOp → Prop
  | .addOp _ _ pays => ∀ p ∈ pays, 0 < p
  | .clearOp => True

instance : DecidablePred wfOp := fun op => by
  cases op with
  | addOp u sz pays => exact inferInstanceAs (Decidable (∀ p ∈ pays, 0 < p))
  | clearOp => exact inferInstanceAs (Decidable True)

def wfOps (ops : List AOp) : Prop := ∀ op ∈ ops, wfOp op

instance : DecidablePred wfOps := fun ops =>
  inferInstanceAs (Decidable (∀ op ∈ ops, wfOp op))

/-- Ghost bookkeeping: the user work items currently submitted to the
arena, in submission order (clear discards them). -/
def subStep (acc : List UItem) : AOp → List UItem
  | .addOp u _ _ => acc ++ [u]
  | .clearOp => []

def subA (ops : List AOp) : List UItem := ops.foldl subStep []

/-- The drain walk of allocator::impl::drain, fuelled: start at a link
slot; a zero word terminates; otherwise the work item lives in the word
after the link and the walk continues at the linked record. -/
def walkF (m : Mem) : Addr → Nat → Option (List WItem)
  | _, 0 => none
  | a, fuel + 1 =>
    match m a.pid a.off with
    | Cell.nilC => some []
    | Cell.linkC b =>
      match m a.pid (a.off + 1) with
      | Cell.itemC w => (walkF m b fuel).map (fun ws => w :: ws)
      | _ => none
    | _ => none

/-- Error classification of drain: catch (boost::exception&), then
catch (std::exception&), then catch (...). -/
inductive ErrKind
  | boostK
  | stdK
  | unknownK
deriving DecidableEq

/-- Effect of one iteration of the drain loop body on one work item,
given whether an error policy is installed: the sink output it produces
and the report it sends to the error policy.  page_break::apply does
exactly nothing; a completing user item writes its tag; a raising item
is caught by the matching handler branch and reported only if ep_ is
non-null. -/
def applyOne (ep : Bool) : WItem → List Nat × List ErrKind
  | .pb => ([], [])
  | .user u =>
    match u.beh with
    | .ok => ([u.tag], [])
    | .boostE => ([], if ep then [ErrKind.boostK] else [])
    | .stdE => ([], if ep then [ErrKind.stdK] else [])
    | .otherE => ([], if ep then [ErrKind.unknownK] else [])

/-- Accumulated effect of draining a list of records in walk order: the
drain continues past every caught exception and itself returns normally
(the try block around apply has a catch-all). -/
def drainEffects : List WItem → Bool → List Nat × List ErrKind
  | [], _ => ([], [])
  | w :: ws, ep =>
    let h := applyOne ep w
    let t := drainEffects ws ep
    (h.1 ++ t.1, h.2 ++ t.2)

def userOf : WItem → Option UItem
  | .pb => none
  | .user u => some u

/-- The user work items among a record list, in order. -/
def usersW (ws : List WItem) : List UItem := ws.filterMap userOf

def okTag (u : UItem) : Option Nat :=
  match u.beh with
  | .ok => some u.tag
  | _ => none

def okTags (l : List UItem) : List Nat := l.filterMap okTag

def kindOf (u : UItem) : Option ErrKind :=
  match u.beh with
  | .ok => none
  | .boostE => some ErrKind.boostK
  | .stdE => some ErrKind.stdK
  | .otherE => some ErrKind.unknownK

def kinds (l : List UItem) : List ErrKind := l.filterMap kindOf

/-! ### Address order and memory lemmas -/

/-- Allocation order on addresses: pages are allocated with increasing
identities and the cursor only moves forward inside a page. -/
def addrLt (a b : Addr) : Prop :=
  a.pid < b.pid ∨ (a.pid = b.pid ∧ a.off < b.off)

def succA (a : Addr) : Addr := ⟨a.pid, a.off + 1⟩

theorem addrLt_trans {a b c : Addr} (h1 : addrLt a b) (h2 : addrLt b c) : addrLt a c := by
  rcases h1 with h1 | ⟨h1, h1o⟩ <;> rcases h2 with h2 | ⟨h2, h2o⟩ <;>
    simp only [addrLt] <;> omega

theorem addrLt_ne {a b : Addr} (h : addrLt a b) : a ≠ b := by
  rintro rfl
  rcases h with h | ⟨_, h⟩ <;> omega

theorem addrLt_succA (a : Addr) : addrLt a (succA a) := by
  right; exact ⟨rfl, Nat.lt_succ_self _⟩

theorem addrLt_of_succA {a b : Addr} (h : addrLt (succA a) b) : addrLt a b :=
  addrLt_trans (addrLt_succA a) h

theorem addrLt_of_pid {a b : Addr} (h : a.pid < b.pid) : addrLt a b := Or.inl h

theorem addrLt_of_off {a b : Addr} (hp : a.pid = b.pid) (h : a.off < b.off) : addrLt a b :=
  Or.inr ⟨hp, h⟩

theorem writeMem_self (m : Mem) (a : Addr) (c : Cell) :
    writeMem m a c a.pid a.off = c := by
  simp [writeMem]

theorem writeMem_other (m : Mem) (a : Addr) (c : Cell) {b : Addr} (h : b ≠ a) :
    writeMem m a c b.pid b.off = m b.pid b.off := by
  have : ¬ (b.pid = a.pid ∧ b.off = a.off) := by
    intro ⟨h1, h2⟩
    exact h (by cases a; cases b; simp_all)
  simp [writeMem, this]

theorem writeMem_eqc (m : Mem) (a : Addr) (c : Cell) (p o : Nat)
    (hp : p = a.pid) (ho : o = a.off) : writeMem m a c p o = c := by
  subst hp; subst ho; exact writeMem_self m a c

theorem writeMem_nec (m : Mem) (a : Addr) (c : Cell) (p o : Nat)
    (h : ¬ (p = a.pid ∧ o = a.off)) : writeMem m a c p o = m p o := by
  simp [writeMem, h]

theorem writeMem_cancel {m : Mem} {a : Addr} {c : Cell}
    (h : m a.pid a.off = c) : writeMem m a c = m := by
  funext p o
  by_cases hp : p = a.pid ∧ o = a.off
  · obtain ⟨rfl, rfl⟩ := hp
    simpa [writeMem] using h.symm
  · simp [writeMem, hp]

/-! ### The forward link chain -/

/-- Links m a recs e: starting at the link slot a, the memory m holds the
given sequence of records (each a link word followed by a work item) and
the chain of links ends at the slot e. -/
inductive Links (m : Mem) : Addr → List (Addr × WItem) → Addr → Prop
  | nil (a : Addr) : Links m a [] a
  | cons {a b e : Addr} {w : WItem} {rest : List (Addr × WItem)}
      (hl : m a.pid a.off = Cell.linkC b)
      (hw : m a.pid (a.off + 1) = Cell.itemC w)
      (hrest : Links m b rest e) : Links m a ((a, w) :: rest) e

theorem links_append {m : Mem} {s mid e : Addr} {r1 r2 : List (Addr × WItem)}
    (h1 : Links m s r1 mid) (h2 : Links m mid r2 e) : Links m s (r1 ++ r2) e := by
  induction h1 with
  | nil a => exact h2
  | cons hl hw _ ih => exact Links.cons hl hw (ih h2)

theorem links_frame {m m' : Mem} {s e : Addr} {recs : List (Addr × WItem)}
    (h : Links m s recs e)
    (hag : ∀ r ∈ recs,
      m' r.1.pid r.1.off = m r.1.pid r.1.off ∧
      m' r.1.pid (r.1.off + 1) = m r.1.pid (r.1.off + 1)) :
    Links m' s recs e := by
  induction recs generalizing s with
  | nil => cases h; exact Links.nil _
  | cons hd tl ih =>
    cases h with
    | cons hl hw hrest =>
      have hme := hag _ (List.mem_cons_self _ _)
      exact Links.cons (hme.1.trans hl) (hme.2.trans hw)
        (ih hrest fun r hm => hag r (List.mem_cons_of_mem _ hm))

theorem links_unsnoc {m : Mem} {s e : Addr} {pre : List (Addr × WItem)}
    {p : Addr} {wq : WItem}
    (h : Links m s (pre ++ [(p, wq)]) e) :
    Links m s pre p ∧ m p.pid p.off = Cell.linkC e ∧ m p.pid (p.off + 1) = Cell.itemC wq := by
  induction pre generalizing s with
  | nil =>
    cases h with
    | cons hl hw hrest =>
      cases hrest
      exact ⟨Links.nil _, hl, hw⟩
  | cons hd tl ih =>
    cases h with
    | cons hl hw hrest =>
      obtain ⟨h1, h2, h3⟩ := ih hrest
      exact ⟨Links.cons hl hw h1, h2, h3⟩

theorem walkF_term {m : Mem} {a : Addr} {fuel : Nat}
    (h : m a.pid a.off = Cell.nilC) : walkF m a (fuel + 1) = some [] := by
  conv_lhs => unfold walkF
  rw [h]

theorem walkF_cons {m : Mem} {a b : Addr} {w : WItem} {fuel : Nat}
    (hl : m a.pid a.off = Cell.linkC b) (hw : m a.pid (a.off + 1) = Cell.itemC w) :
    walkF m a (fuel + 1) = (walkF m b fuel).map (fun ws => w :: ws) := by
  conv_lhs => unfold walkF
  rw [hl, hw]

theorem links_walkF {m : Mem} {e : Addr} {recs : List (Addr × WItem)} {s : Addr}
    (h : Links m s recs e) (he : m e.pid e.off = Cell.nilC) :
    walkF m s (recs.length + 1) = some (recs.map Prod.snd) := by
  induction recs generalizing s with
  | nil =>
    cases h
    exact walkF_term he
  | cons hd tl ih =>
    cases h with
    | cons hl hw hrest =>
      rw [List.length_cons, walkF_cons hl hw, ih hrest]
      rfl

/-! ### Spacing of record addresses -/

/-- Spaced l c: the record addresses in l come strictly one after the
other (each record occupies at least its link word and its item word)
and all of them lie strictly before c. -/
def Spaced : List Addr → Addr → Prop
  | [], _ => True
  | a :: rest, c =>
    (match rest with
     | [] => addrLt (succA a) c
     | b :: _ => addrLt (succA a) b) ∧ Spaced rest c

theorem spaced_lt {l : List Addr} {c : Addr} (h : Spaced l c) :
    ∀ a ∈ l, addrLt a c ∧ addrLt (succA a) c := by
  induction l with
  | nil => intro a ha; cases ha
  | cons hd tl ih =>
    intro a ha
    rcases List.mem_cons.mp ha with rfl | ha
    · cases tl with
      | nil => exact ⟨addrLt_of_succA h.1, h.1⟩
      | cons b tb =>
        have hb := (ih h.2 b (by simp)).1
        exact ⟨addrLt_of_succA (addrLt_trans h.1 hb), addrLt_trans h.1 hb⟩
    · exact ih h.2 a ha

theorem spaced_mono {l : List Addr} {c d : Addr} (h : Spaced l c)
    (hcd : addrLt c d) : Spaced l d := by
  induction l with
  | nil => trivial
  | cons hd tl ih =>
    cases tl with
    | nil => exact ⟨addrLt_trans h.1 hcd, trivial⟩
    | cons b tb => exact ⟨h.1, ih h.2⟩

theorem spaced_snoc {l : List Addr} {c d : Addr} (h : Spaced l c)
    (hcd : addrLt (succA c) d) : Spaced (l ++ [c]) d := by
  induction l with
  | nil => exact ⟨hcd, trivial⟩
  | cons hd tl ih =>
    cases tl with
    | nil => exact ⟨h.1, ih trivial⟩
    | cons b tb => exact ⟨h.1, ih h.2⟩

theorem spaced_unsnoc {l : List Addr} {p c : Addr} (h : Spaced (l ++ [p]) c) :
    Spaced l p ∧ addrLt (succA p) c := by
  induction l with
  | nil => exact ⟨trivial, h.1⟩
  | cons hd tl ih =>
    obtain ⟨h1, h2⟩ := ih h.2
    refine ⟨⟨?_, h1⟩, h2⟩
    cases tl with
    | nil => simpa using h.1
    | cons b tb => simpa using h.1

/-! ### List helpers -/

theorem getLastD_snoc (l : List PageRec) (a d : PageRec) :
    (l ++ [a]).getLastD d = a := by
  induction l generalizing d with
  | nil => rfl
  | cons hd tl ih => simpa [List.getLastD] using ih hd

theorem mem_getLastD {l : List PageRec} (h : l ≠ []) (d : PageRec) :
    l.getLastD d ∈ l := by
  induction l generalizing d with
  | nil => exact absurd rfl h
  | cons hd tl ih =>
    cases tl with
    | nil => simp [List.getLastD]
    | cons b tb =>
      simp only [List.getLastD]
      exact List.mem_cons_of_mem _ (ih (by simp) hd)

theorem headD_append_of_ne {l : List PageRec} (h : l ≠ []) (l' : List PageRec)
    (d : PageRec) : (l ++ l').headD d = l.headD d := by
  cases l with
  | nil => exact absurd rfl h
  | cons hd tl => rfl

theorem one_le_wordsFor (sz : Nat) : 1 ≤ wordsFor sz := by
  unfold wordsFor; omega

theorem two_le_wordsFor_add8 (sz : Nat) : 2 ≤ wordsFor (sz + 8) := by
  have h1 : 1 ≤ (sz + 8 - 1 + 7) / 8 := (Nat.one_le_div_iff (by norm_num)).mpr (by omega)
  unfold wordsFor; omega

/-! ### The arena invariant -/

/-- Invariant relating an allocator state to the abstract record list it
holds: the chain is nonempty with fresh-bounded page identities, cursor_
and end_of_page_ live on the last page, the memory holds exactly the
given records as a forward link chain from first page start to the
current terminator, the record addresses are spaced in allocation order
strictly before the cursor, and prev_cursor_ is NULL exactly in the
freshly cleared state and otherwise points at the link word of the most
recently added record. -/
structure AInv (s : AState) (recs : List (Addr × WItem)) : Prop where
  chain_ne : s.chain ≠ []
  pid_lt : ∀ q ∈ s.chain, q.pid < s.nextPid
  cur_pid : s.cursor.pid = (lastPage s).pid
  end_eq : s.endOff = capW (lastPage s)
  links : Links s.mem (startA s) recs s.cursor
  term : s.mem s.cursor.pid s.cursor.off = Cell.nilC
  spc : Spaced (recs.map Prod.fst) s.cursor
  prev_none : s.prevCursor = none → recs = [] ∧ s.cursor = startA s
  prev_some : ∀ p, s.prevCursor = some p → ∃ pre w, recs = pre ++ [(p, w)]

/-! ### Computation lemmas: the exact effect of each operation -/

theorem add_fit_eq (u : UItem) (sz : Nat) (s : AState)
    (hfit : s.cursor.off + wordsFor (sz + 8) < s.endOff) :
    add u sz s =
      { s with
        mem := writeMem (writeMem
            (writeMem s.mem s.cursor
              (Cell.linkC ⟨s.cursor.pid, s.cursor.off + wordsFor (sz + 8)⟩))
            ⟨s.cursor.pid, s.cursor.off + wordsFor (sz + 8)⟩ Cell.nilC)
          ⟨s.cursor.pid, s.cursor.off + 1⟩ (Cell.itemC (WItem.user u)),
        cursor := ⟨s.cursor.pid, s.cursor.off + wordsFor (sz + 8)⟩,
        prevCursor := some s.cursor,
        lastAllocated := some s.cursor } := by
  simp only [add, alloc]
  rw [if_pos hfit]

theorem add_grow_eq (u : UItem) (sz : Nat) (s : AState)
    (hfit : ¬ (s.cursor.off + wordsFor (sz + 8) < s.endOff)) :
    add u sz s =
      { chain := s.chain ++ [⟨s.nextPid, max (2 * tailCapB s) (2 * (sz + 8 - 1))⟩],
        nextPid := s.nextPid + 1,
        mem := writeMem (writeMem (writeMem (writeMem (writeMem
            (writeMem s.mem ⟨s.nextPid, 0⟩ Cell.nilC)
            ⟨s.cursor.pid, s.cursor.off + 1⟩ (Cell.itemC WItem.pb))
            s.cursor (Cell.linkC ⟨s.nextPid, 0⟩))
            ⟨s.nextPid, 0⟩ (Cell.linkC ⟨s.nextPid, wordsFor (sz + 8)⟩))
            ⟨s.nextPid, wordsFor (sz + 8)⟩ Cell.nilC)
          ⟨s.nextPid, 1⟩ (Cell.itemC (WItem.user u)),
        cursor := ⟨s.nextPid, wordsFor (sz + 8)⟩,
        prevCursor := some ⟨s.nextPid, 0⟩,
        endOff := max (2 * tailCapB s) (2 * (sz + 8 - 1)) / 8,
        lastAllocated := some ⟨s.nextPid, 0⟩ } := by
  simp only [add, alloc, tailCapB, lastPage]
  rw [if_neg hfit]
  simp [capW]

theorem allocPay_fit_eq (p : Nat) (s : AState) {q : Addr}
    (hq : s.prevCursor = some q)
    (hfit : s.cursor.off + wordsFor p < s.endOff) :
    allocPay p s =
      { s with
        mem := writeMem
            (writeMem s.mem q (Cell.linkC ⟨s.cursor.pid, s.cursor.off + wordsFor p⟩))
            ⟨s.cursor.pid, s.cursor.off + wordsFor p⟩ Cell.nilC,
        cursor := ⟨s.cursor.pid, s.cursor.off + wordsFor p⟩,
        lastAllocated := some s.cursor } := by
  simp only [allocPay, alloc, hq]
  rw [if_pos hfit]

theorem allocPay_grow_eq (p : Nat) (s : AState) {q : Addr}
    (hq : s.prevCursor = some q) (hqc : q ≠ s.cursor)
    (hfit : ¬ (s.cursor.off + wordsFor p < s.endOff)) :
    allocPay p s =
      { chain := s.chain ++ [⟨s.nextPid, max (2 * tailCapB s) (2 * (p - 1))⟩],
        nextPid := s.nextPid + 1,
        mem := writeMem (writeMem
            (writeMem s.mem ⟨s.nextPid, 0⟩ Cell.nilC)
            q (Cell.linkC ⟨s.nextPid, wordsFor p⟩))
          ⟨s.nextPid, wordsFor p⟩ Cell.nilC,
        cursor := ⟨s.nextPid, wordsFor p⟩,
        prevCursor := some q,
        endOff := max (2 * tailCapB s) (2 * (p - 1)) / 8,
        lastAllocated := some ⟨s.nextPid, 0⟩ } := by
  have hne : ¬ (some q = some s.cursor) := by simpa using hqc
  simp only [allocPay, alloc, hq]
  rw [if_neg hfit]
  simp [hne, capW]

/-! ### Invariant preservation -/

theorem addrLt_pid_le {a b : Addr} (h : addrLt a b) : a.pid ≤ b.pid := by
  rcases h with h | ⟨h, _⟩ <;> omega

theorem addr_ne_pid {a b : Addr} (h : a.pid ≠ b.pid) : a ≠ b := by
  intro heq; exact h (by rw [heq])

theorem addr_ne_off {a b : Addr} (h : a.off ≠ b.off) : a ≠ b := by
  intro heq; exact h (by rw [heq])

theorem addrLt_nec {a b : Addr} (h : addrLt a b) :
    ¬ (a.pid = b.pid ∧ a.off = b.off) := by
  rintro ⟨h1, h2⟩
  rcases h with h | ⟨h3, h4⟩ <;> omega

theorem add_inv_fit {s : AState} {recs : List (Addr × WItem)} (u : UItem) (sz : Nat)
    (hinv : AInv s recs)
    (hfit : s.cursor.off + wordsFor (sz + 8) < s.endOff) :
    AInv (add u sz s) (recs ++ [(s.cursor, WItem.user u)]) := by
  obtain ⟨hcne, hpid, hcpid, hend, hlinks, hterm, hspc, hpn, hps⟩ := hinv
  have hw2 : 2 ≤ wordsFor (sz + 8) := two_le_wordsFor_add8 sz
  set c := s.cursor with hc
  set w := wordsFor (sz + 8) with hwdef
  set nc : Addr := ⟨c.pid, c.off + w⟩ with hnc
  have hlt_c_succ : addrLt c (succA c) := addrLt_succA c
  have hlt_c_nc : addrLt c nc :=
    addrLt_of_off rfl (Nat.lt_add_of_pos_right (by omega))
  have hlt_succ_nc : addrLt (succA c) nc :=
    addrLt_of_off rfl (Nat.add_lt_add_left (show 1 < w by omega) c.off)
  rw [add_fit_eq u sz s hfit]
  set M := writeMem (writeMem (writeMem s.mem c (Cell.linkC nc)) nc Cell.nilC)
    ⟨c.pid, c.off + 1⟩ (Cell.itemC (WItem.user u)) with hM
  have hsucc_eq : (⟨c.pid, c.off + 1⟩ : Addr) = succA c := rfl
  have hM_old : ∀ x : Addr, addrLt x c → M x.pid x.off = s.mem x.pid x.off := by
    intro x hx
    rw [hM, hsucc_eq,
      writeMem_other _ _ _ (addrLt_ne (addrLt_trans hx hlt_c_succ)),
      writeMem_other _ _ _ (addrLt_ne (addrLt_trans hx hlt_c_nc)),
      writeMem_other _ _ _ (addrLt_ne hx)]
  have hM_c : M c.pid c.off = Cell.linkC nc := by
    rw [hM, hsucc_eq, writeMem_other _ _ _ (addrLt_ne hlt_c_succ),
      writeMem_other _ _ _ (addrLt_ne hlt_c_nc), writeMem_self]
  have hM_succ : M (succA c).pid (succA c).off = Cell.itemC (WItem.user u) := by
    rw [hM, hsucc_eq, writeMem_self]
  have hM_nc : M nc.pid nc.off = Cell.nilC := by
    rw [hM, hsucc_eq, writeMem_other _ _ _ (Ne.symm (addrLt_ne hlt_succ_nc)),
      writeMem_self]
  have hcells : ∀ r ∈ recs, addrLt r.1 c ∧ addrLt (succA r.1) c := by
    intro r hr
    have := spaced_lt hspc r.1 (List.mem_map_of_mem _ hr)
    exact this
  refine ⟨hcne, hpid, hcpid, hend, ?_, hM_nc, ?_, ?_, ?_⟩
  · show Links M (startA s) _ nc
    refine links_append (links_frame hlinks ?_) ?_
    · intro r hr
      exact ⟨hM_old r.1 (hcells r hr).1, hM_old (succA r.1) (hcells r hr).2⟩
    · exact Links.cons hM_c hM_succ (Links.nil nc)
  · show Spaced _ nc
    simpa using spaced_snoc hspc hlt_succ_nc
  · intro h
    simp at h
  · intro p hp
    simp only [Option.some.injEq] at hp
    exact ⟨recs, WItem.user u, by subst hp; rfl⟩

theorem add_inv_grow {s : AState} {recs : List (Addr × WItem)} (u : UItem) (sz : Nat)
    (hinv : AInv s recs)
    (hfit : ¬ (s.cursor.off + wordsFor (sz + 8) < s.endOff)) :
    AInv (add u sz s)
      (recs ++ [(s.cursor, WItem.pb), (⟨s.nextPid, 0⟩, WItem.user u)]) := by
  obtain ⟨hcne, hpid, hcpid, hend, hlinks, hterm, hspc, hpn, hps⟩ := hinv
  have hw2 : 2 ≤ wordsFor (sz + 8) := two_le_wordsFor_add8 sz
  set c := s.cursor with hc
  set w := wordsFor (sz + 8) with hwdef
  set np := s.nextPid with hnp
  have hcplt : c.pid < np := by
    rw [hcpid]
    exact hpid _ (mem_getLastD hcne _)
  set N := max (2 * tailCapB s) (2 * (sz + 8 - 1)) with hN
  rw [add_grow_eq u sz s hfit]
  set M := writeMem (writeMem (writeMem (writeMem (writeMem
      (writeMem s.mem ⟨np, 0⟩ Cell.nilC)
      ⟨c.pid, c.off + 1⟩ (Cell.itemC WItem.pb))
      c (Cell.linkC ⟨np, 0⟩))
      ⟨np, 0⟩ (Cell.linkC ⟨np, w⟩))
      ⟨np, w⟩ Cell.nilC)
    ⟨np, 1⟩ (Cell.itemC (WItem.user u)) with hM
  have hM_old : ∀ x : Addr, addrLt x c → M x.pid x.off = s.mem x.pid x.off := by
    intro x hx
    have hxp : x.pid < np := lt_of_le_of_lt (addrLt_pid_le hx) hcplt
    have hxc : ¬ (x.pid = c.pid ∧ x.off = c.off) := by
      rcases hx with h | ⟨h1, h2⟩ <;> omega
    have hxc1 : ¬ (x.pid = c.pid ∧ x.off = c.off + 1) := by
      rcases hx with h | ⟨h1, h2⟩ <;> omega
    rw [hM, writeMem_nec _ _ _ _ _ (by simp <;> omega),
      writeMem_nec _ _ _ _ _ (by simp <;> omega),
      writeMem_nec _ _ _ _ _ (by simp <;> omega),
      writeMem_nec _ _ _ _ _ hxc,
      writeMem_nec _ _ _ _ _ (by simpa using hxc1),
      writeMem_nec _ _ _ _ _ (by simp <;> omega)]
  have hM_c : M c.pid c.off = Cell.linkC ⟨np, 0⟩ := by
    rw [hM, writeMem_nec _ _ _ _ _ (by simp <;> omega),
      writeMem_nec _ _ _ _ _ (by simp <;> omega),
      writeMem_nec _ _ _ _ _ (by simp <;> omega),
      writeMem_eqc _ _ _ _ _ rfl rfl]
  have hM_csucc : M c.pid (c.off + 1) = Cell.itemC WItem.pb := by
    rw [hM, writeMem_nec _ _ _ _ _ (by simp <;> omega),
      writeMem_nec _ _ _ _ _ (by simp <;> omega),
      writeMem_nec _ _ _ _ _ (by simp <;> omega),
      writeMem_nec _ _ _ _ _ (by simp <;> omega),
      writeMem_eqc _ _ _ _ _ rfl rfl]
  have hM_np0 : M np 0 = Cell.linkC ⟨np, w⟩ := by
    rw [hM, writeMem_nec _ _ _ _ _ (by simp <;> omega),
      writeMem_nec _ _ _ _ _ (by simp <;> omega),
      writeMem_eqc _ _ _ _ _ rfl rfl]
  have hM_np1 : M np 1 = Cell.itemC (WItem.user u) := by
    rw [hM, writeMem_eqc _ _ _ _ _ rfl rfl]
  have hM_npw : M np w = Cell.nilC := by
    rw [hM, writeMem_nec _ _ _ _ _ (by simp <;> omega),
      writeMem_eqc _ _ _ _ _ rfl rfl]
  have hcells : ∀ r ∈ recs, addrLt r.1 c ∧ addrLt (succA r.1) c := by
    intro r hr
    exact spaced_lt hspc r.1 (List.mem_map_of_mem _ hr)
  have hlinks2 : Links M (startA s)
      (recs ++ [(c, WItem.pb), (⟨np, 0⟩, WItem.user u)]) ⟨np, w⟩ := by
    refine links_append (links_frame hlinks ?_) ?_
    · intro r hr
      exact ⟨hM_old r.1 (hcells r hr).1, hM_old (succA r.1) (hcells r hr).2⟩
    · exact Links.cons hM_c hM_csucc (Links.cons hM_np0 hM_np1 (Links.nil _))
  have hstart : (startA (AState.mk (s.chain ++ [⟨np, N⟩]) (np + 1) M ⟨np, w⟩
      (some ⟨np, 0⟩) (N / 8) (some ⟨np, 0⟩))) = startA s := by
    simp only [startA, headPage]
    rw [headD_append_of_ne hcne]
  refine ⟨by simp, ?_, ?_, ?_, ?_, hM_npw, ?_, ?_, ?_⟩
  · intro q hq
    simp only [List.mem_append, List.mem_singleton] at hq
    rcases hq with hq | rfl
    · exact Nat.lt_succ_of_lt (hpid q hq)
    · exact Nat.lt_succ_self _
  · show (⟨np, w⟩ : Addr).pid = _
    simp [lastPage, getLastD_snoc]
  · show N / 8 = capW (lastPage (AState.mk (s.chain ++ [⟨np, N⟩]) (np + 1) M ⟨np, w⟩
      (some ⟨np, 0⟩) (N / 8) (some ⟨np, 0⟩)))
    simp [lastPage, getLastD_snoc, capW]
  · show Links M (startA (AState.mk (s.chain ++ [⟨np, N⟩]) (np + 1) M ⟨np, w⟩
      (some ⟨np, 0⟩) (N / 8) (some ⟨np, 0⟩))) _ (⟨np, w⟩ : Addr)
    rw [hstart]
    exact hlinks2
  · show Spaced _ (⟨np, w⟩ : Addr)
    have h1 : Spaced (recs.map Prod.fst ++ [c]) ⟨np, 0⟩ :=
      spaced_snoc hspc (addrLt_of_pid (by simp [succA]; omega))
    have h2 : Spaced ((recs.map Prod.fst ++ [c]) ++ [⟨np, 0⟩]) ⟨np, w⟩ :=
      spaced_snoc h1 (addrLt_of_off rfl (by simp [succA]; omega))
    simpa using h2
  · intro h
    simp at h
  · intro p hp
    simp only [Option.some.injEq] at hp
    exact ⟨recs ++ [(c, WItem.pb)], WItem.user u, by subst hp; simp⟩

theorem addrLt_nec_succ {a b : Addr} (h : addrLt (succA a) b) :
    ¬ (a.pid = b.pid ∧ a.off + 1 = b.off) := by
  rintro ⟨h1, h2⟩
  rcases h with h | ⟨h3, h4⟩
  · simp only [succA] at h; omega
  · simp only [succA] at h4; omega

theorem allocPay_inv {s : AState} {recs : List (Addr × WItem)} (p : Nat)
    (hinv : AInv s recs) (hne : recs ≠ []) :
    AInv (allocPay p s) recs := by
  obtain ⟨hcne, hpid, hcpid, hend, hlinks, hterm, hspc, hpn, hps⟩ := hinv
  obtain ⟨q, hq⟩ : ∃ q, s.prevCursor = some q := by
    cases hqq : s.prevCursor with
    | none => exact absurd (hpn hqq).1 hne
    | some q => exact ⟨q, rfl⟩
  obtain ⟨pre, wq, hrecs⟩ := hps q hq
  set c := s.cursor with hc
  have hspc2 : Spaced (pre.map Prod.fst ++ [q]) c := by
    have hmap : recs.map Prod.fst = pre.map Prod.fst ++ [q] := by simp [hrecs]
    rwa [hmap] at hspc
  obtain ⟨hspre, hsq⟩ := spaced_unsnoc hspc2
  have hqc : addrLt q c := addrLt_of_succA hsq
  have hqcne : q ≠ c := addrLt_ne hqc
  obtain ⟨hlpre, hql, hqi⟩ := links_unsnoc (hrecs ▸ hlinks)
  have hprecells : ∀ r ∈ pre, addrLt r.1 q ∧ addrLt (succA r.1) q := by
    intro r hr
    exact spaced_lt hspre r.1 (List.mem_map_of_mem _ hr)
  set w := wordsFor p with hwdef
  have hw1 : 1 ≤ w := one_le_wordsFor p
  by_cases hfit : c.off + w < s.endOff
  · -- the payload still fits on the tail page: the record is extended in place
    rw [allocPay_fit_eq p s hq hfit]
    have hcnc : addrLt c ⟨c.pid, c.off + w⟩ :=
      addrLt_of_off rfl (Nat.lt_add_of_pos_right (by omega))
    have hqnc : addrLt q ⟨c.pid, c.off + w⟩ := addrLt_trans hqc hcnc
    have hsqnc : addrLt (succA q) ⟨c.pid, c.off + w⟩ := addrLt_trans hsq hcnc
    set M := writeMem (writeMem s.mem q (Cell.linkC ⟨c.pid, c.off + w⟩))
      ⟨c.pid, c.off + w⟩ Cell.nilC with hM
    have hM_old : ∀ x : Addr, addrLt x q → M x.pid x.off = s.mem x.pid x.off := by
      intro x hx
      rw [hM, writeMem_nec _ _ _ _ _ (addrLt_nec (addrLt_trans hx hqnc)),
        writeMem_nec _ _ _ _ _ (addrLt_nec hx)]
    have hM_q : M q.pid q.off = Cell.linkC ⟨c.pid, c.off + w⟩ := by
      rw [hM, writeMem_nec _ _ _ _ _ (addrLt_nec hqnc),
        writeMem_eqc _ _ _ _ _ rfl rfl]
    have hM_qi : M q.pid (q.off + 1) = Cell.itemC wq := by
      rw [hM, writeMem_nec _ _ _ _ _ (addrLt_nec_succ hsqnc),
        writeMem_nec _ _ _ _ _ (by simp)]
      exact hqi
    have hM_nc : M c.pid (c.off + w) = Cell.nilC := by
      rw [hM, writeMem_eqc _ _ _ _ _ rfl rfl]
    refine ⟨hcne, hpid, hcpid, hend, ?_, hM_nc, ?_, ?_, ?_⟩
    · show Links M (startA s) recs (⟨c.pid, c.off + w⟩ : Addr)
      rw [hrecs]
      refine links_append (links_frame hlpre ?_) ?_
      · intro r hr
        exact ⟨hM_old r.1 (hprecells r hr).1, hM_old (succA r.1) (hprecells r hr).2⟩
      · exact Links.cons hM_q hM_qi (Links.nil _)
    · show Spaced _ (⟨c.pid, c.off + w⟩ : Addr)
      exact spaced_mono hspc hcnc
    · intro h
      exact absurd (hpn h).1 hne
    · intro p2 hp2
      exact hps p2 hp2
  · -- the payload does not fit: the record is relinked into a fresh page
    rw [allocPay_grow_eq p s hq hqcne hfit]
    set np := s.nextPid with hnp
    have hcplt : c.pid < np := by
      rw [hcpid]
      exact hpid _ (mem_getLastD hcne _)
    have hqplt : q.pid < np := lt_of_le_of_lt (addrLt_pid_le hqc) hcplt
    set N2 := max (2 * tailCapB s) (2 * (p - 1)) with hN2
    set M := writeMem (writeMem (writeMem s.mem ⟨np, 0⟩ Cell.nilC)
      q (Cell.linkC ⟨np, w⟩)) ⟨np, w⟩ Cell.nilC with hM
    have hM_old : ∀ x : Addr, addrLt x q → M x.pid x.off = s.mem x.pid x.off := by
      intro x hx
      have hxp : x.pid < np := lt_of_le_of_lt (addrLt_pid_le hx) hqplt
      rw [hM, writeMem_nec _ _ _ _ _ (by simp <;> omega),
        writeMem_nec _ _ _ _ _ (addrLt_nec hx),
        writeMem_nec _ _ _ _ _ (by simp <;> omega)]
    have hM_q : M q.pid q.off = Cell.linkC ⟨np, w⟩ := by
      rw [hM, writeMem_nec _ _ _ _ _ (by simp <;> omega),
        writeMem_eqc _ _ _ _ _ rfl rfl]
    have hM_qi : M q.pid (q.off + 1) = Cell.itemC wq := by
      rw [hM, writeMem_nec _ _ _ _ _ (by simp <;> omega),
        writeMem_nec _ _ _ _ _ (by simp),
        writeMem_nec _ _ _ _ _ (by simp <;> omega)]
      exact hqi
    have hM_npw : M np w = Cell.nilC := by
      rw [hM, writeMem_eqc _ _ _ _ _ rfl rfl]
    have hstart : (startA (AState.mk (s.chain ++ [⟨np, N2⟩]) (np + 1) M ⟨np, w⟩
        (some q) (N2 / 8) (some ⟨np, 0⟩))) = startA s := by
      simp only [startA, headPage]
      rw [headD_append_of_ne hcne]
    refine ⟨by simp, ?_, ?_, ?_, ?_, hM_npw, ?_, ?_, ?_⟩
    · intro r hr
      simp only [List.mem_append, List.mem_singleton] at hr
      rcases hr with hr | rfl
      · exact Nat.lt_succ_of_lt (hpid r hr)
      · exact Nat.lt_succ_self _
    · show (⟨np, w⟩ : Addr).pid = _
      simp [lastPage, getLastD_snoc]
    · show N2 / 8 = capW (lastPage (AState.mk (s.chain ++ [⟨np, N2⟩]) (np + 1) M ⟨np, w⟩
        (some q) (N2 / 8) (some ⟨np, 0⟩)))
      simp [lastPage, getLastD_snoc, capW]
    · show Links M (startA (AState.mk (s.chain ++ [⟨np, N2⟩]) (np + 1) M ⟨np, w⟩
        (some q) (N2 / 8) (some ⟨np, 0⟩))) recs (⟨np, w⟩ : Addr)
      rw [hstart, hrecs]
      refine links_append (links_frame hlpre ?_) ?_
      · intro r hr
        exact ⟨hM_old r.1 (hprecells r hr).1, hM_old (succA r.1) (hprecells r hr).2⟩
      · exact Links.cons hM_q hM_qi (Links.nil _)
    · show Spaced _ (⟨np, w⟩ : Addr)
      exact spaced_mono hspc (addrLt_of_pid (by simpa using hcplt))
    · intro h
      simp at h
    · intro p2 hp2
      simp only [Option.some.injEq] at hp2
      subst hp2
      exact ⟨pre, wq, hrecs⟩

theorem clearA_eq (s : AState) :
    clearA s = AState.mk [lastPage s] s.nextPid
      (writeMem (writeMem s.mem ⟨(headPage s).pid, 0⟩ Cell.nilC)
        ⟨(lastPage s).pid, 0⟩ Cell.nilC)
      ⟨(lastPage s).pid, 0⟩ none (capW (lastPage s)) none := rfl

theorem clearA_inv (s : AState) (hcne : s.chain ≠ [])
    (hpid : ∀ q ∈ s.chain, q.pid < s.nextPid) :
    AInv (clearA s) [] := by
  rw [clearA_eq]
  refine ⟨by simp, ?_, ?_, ?_, ?_, ?_, trivial, ?_, ?_⟩
  · intro q hq
    simp only [List.mem_singleton] at hq
    subst hq
    exact hpid _ (mem_getLastD hcne _)
  · simp [lastPage, List.getLastD]
  · simp [lastPage, List.getLastD]
  · exact Links.nil _
  · exact writeMem_eqc _ _ _ _ _ rfl rfl
  · intro h
    exact ⟨rfl, rfl⟩
  · intro p2 hp2
    simp at hp2

theorem mkArena_inv : AInv mkArena [] := by
  refine clearA_inv _ (by simp) ?_
  intro q hq
  simp only [List.mem_singleton] at hq
  subst hq
  simp [page0]

/-- Work items held by a record list, in walk order. -/
def usersOf (recs : List (Addr × WItem)) : List UItem := usersW (recs.map Prod.snd)

theorem pays_inv {recs : List (Addr × WItem)} (pays : List Nat) :
    ∀ {s : AState}, AInv s recs → recs ≠ [] →
    AInv (pays.foldl (fun t p2 => allocPay p2 t) s) recs := by
  induction pays with
  | nil => intro s h _; exact h
  | cons hd tl ih =>
    intro s h hne
    exact ih (allocPay_inv hd h hne) hne

theorem stepA_inv {s : AState} {recs : List (Addr × WItem)} (op : AOp)
    (hinv : AInv s recs) :
    ∃ recs2, AInv (stepA s op) recs2 ∧ usersOf recs2 = subStep (usersOf recs) op := by
  cases op with
  | addOp u sz pays =>
    by_cases hfit : s.cursor.off + wordsFor (sz + 8) < s.endOff
    · refine ⟨recs ++ [(s.cursor, WItem.user u)], ?_, ?_⟩
      · exact pays_inv pays (add_inv_fit u sz hinv hfit) (by simp)
      · simp [usersOf, usersW, userOf, subStep]
    · refine ⟨recs ++ [(s.cursor, WItem.pb), (⟨s.nextPid, 0⟩, WItem.user u)], ?_, ?_⟩
      · exact pays_inv pays (add_inv_grow u sz hinv hfit) (by simp)
      · simp [usersOf, usersW, userOf, subStep]
  | clearOp =>
    exact ⟨[], clearA_inv s hinv.chain_ne hinv.pid_lt,
      by simp [usersOf, usersW, subStep]⟩

theorem foldl_stepA_inv (ops : List AOp) :
    ∀ {s : AState} {recs : List (Addr × WItem)}, AInv s recs →
    ∃ recs2, AInv (ops.foldl stepA s) recs2 ∧
      usersOf recs2 = ops.foldl subStep (usersOf recs) := by
  induction ops with
  | nil => intro s recs h; exact ⟨recs, h, rfl⟩
  | cons op tl ih =>
    intro s recs h
    obtain ⟨recs1, h1, he1⟩ := stepA_inv op h
    obtain ⟨recs2, h2, he2⟩ := ih h1
    exact ⟨recs2, h2, by rw [he2, he1]; rfl⟩

theorem runA_inv (ops : List AOp) :
    ∃ recs, AInv (runA ops) recs ∧ usersOf recs = subA ops := by
  have h := foldl_stepA_inv ops mkArena_inv
  simpa [runA, subA, usersOf, usersW] using h

theorem drainEffects_sink (ws : List WItem) (ep : Bool) :
    (drainEffects ws ep).1 = okTags (usersW ws) := by
  induction ws with
  | nil => rfl
  | cons w tl ih =>
    cases w with
    | pb => simpa [drainEffects, applyOne, usersW, userOf] using ih
    | user u =>
      cases hb : u.beh <;>
        simp [drainEffects, applyOne, usersW, userOf, okTags, okTag, hb, ih]

theorem drainEffects_reports (ws : List WItem) :
    (drainEffects ws true).2 = kinds (usersW ws) := by
  induction ws with
  | nil => rfl
  | cons w tl ih =>
    cases w with
    | pb => simpa [drainEffects, applyOne, usersW, userOf] using ih
    | user u =>
      cases hb : u.beh <;>
        simp [drainEffects, applyOne, usersW, userOf, kinds, kindOf, hb, ih]

theorem clearA_idem (s : AState) : clearA (clearA s) = clearA s := by
  have h1 : (clearA s).mem ((⟨(lastPage s).pid, 0⟩ : Addr)).pid
      ((⟨(lastPage s).pid, 0⟩ : Addr)).off = Cell.nilC :=
    writeMem_eqc _ _ _ _ _ rfl rfl
  rw [clearA_eq (clearA s)]
  rw [show lastPage (clearA s) = lastPage s from rfl,
    show headPage (clearA s) = lastPage s from rfl,
    show (clearA s).nextPid = s.nextPid from rfl]
  rw [writeMem_cancel h1, writeMem_cancel h1]
  rfl

/-! ## Claim theorems for the arena allocator -/

/-- C1: for every sequence of work items submitted by one producer into one
stream, modelled as a sequence of add operations (each with the payload
allocations its constructor performs, no intervening clear), draining the
arena walks from the head page first record along each record forward link,
so the work items are applied in exactly the submission order: the user
records met by the walk are the submitted items in order, and the sink
output of the drain equals the output of the submitted items in submission
order. -/
theorem c1_drain_fifo (ops : List AOp) (hwf : wfOps ops)
    (hnc : AOp.clearOp ∉ ops) :
    ∃ ws fuel, walkF (runA ops).mem (startA (runA ops)) fuel = some ws ∧
      usersW ws = subA ops ∧
      (drainEffects ws true).1 = okTags (subA ops) := by
  obtain ⟨recs, hinv, hu⟩ := runA_inv ops
  refine ⟨recs.map Prod.snd, recs.length + 1,
    links_walkF hinv.links hinv.term, ?_, ?_⟩
  · exact hu
  · rw [drainEffects_sink]
    rw [show usersW (recs.map Prod.snd) = usersOf recs from rfl, hu]

def c1ops : List AOp :=
  [AOp.addOp ⟨1, Beh.ok⟩ 8 [], AOp.addOp ⟨2, Beh.ok⟩ 8 [7], AOp.addOp ⟨3, Beh.ok⟩ 24 []]

/-- Witness for C1 at a concrete three-item submission sequence. -/
theorem c1_drain_fifo_witness :
    wfOps c1ops ∧ AOp.clearOp ∉ c1ops ∧
      (∃ ws fuel, walkF (runA c1ops).mem (startA (runA c1ops)) fuel = some ws ∧
        usersW ws = subA c1ops ∧
        (drainEffects ws true).1 = okTags (subA c1ops)) :=
  ⟨by decide, by decide, c1_drain_fifo c1ops (by decide) (by decide)⟩

/-- C5: when a work item apply raises during a drain and an error policy is
installed, the failure is reported exactly once through the matching branch
of the three-way callback (boost::exception to catch_boost_exception,
std::exception to catch_std_exception, anything else to
catch_unknown_exception): the report list of the drain is exactly the
classification of the raising submitted items in submission order.  The
drain continues with the next record (the outputs of all completing items,
later ones included, are still produced), and the exception never
propagates out of drain (drainEffects is total: the loop body catches every
raised exception). -/
theorem c5_error_isolation (ops : List AOp) (hwf : wfOps ops) :
    ∃ ws fuel, walkF (runA ops).mem (startA (runA ops)) fuel = some ws ∧
      (drainEffects ws true).2 = kinds (subA ops) ∧
      (drainEffects ws true).1 = okTags (subA ops) := by
  obtain ⟨recs, hinv, hu⟩ := runA_inv ops
  refine ⟨recs.map Prod.snd, recs.length + 1,
    links_walkF hinv.links hinv.term, ?_, ?_⟩
  · rw [drainEffects_reports]
    rw [show usersW (recs.map Prod.snd) = usersOf recs from rfl, hu]
  · rw [drainEffects_sink]
    rw [show usersW (recs.map Prod.snd) = usersOf recs from rfl, hu]

def c5ops : List AOp :=
  [AOp.addOp ⟨1, Beh.boostE⟩ 8 [], AOp.addOp ⟨2, Beh.ok⟩ 8 [],
   AOp.addOp ⟨3, Beh.stdE⟩ 8 [], AOp.addOp ⟨4, Beh.otherE⟩ 8 []]

/-- Witness for C5: one item of each raising kind plus one completing item. -/
theorem c5_error_isolation_witness :
    wfOps c5ops ∧
      (∃ ws fuel, walkF (runA c5ops).mem (startA (runA c5ops)) fuel = some ws ∧
        (drainEffects ws true).2 = kinds (subA c5ops) ∧
        (drainEffects ws true).1 = okTags (subA c5ops)) :=
  ⟨by decide, c5_error_isolation c5ops (by decide)⟩

def c4ops : List AOp := [AOp.addOp ⟨1, Beh.ok⟩ 4088 []]

/-- C4 counterexample: after one add that grows the chain to a second page,
the arena original head page has identity 0 and the chain is pages 0, 1;
clear() then leaves page 1, the TAIL page, as the single retained page:
it frees the original head page 0, contradicting the claim that all pages
except the head are freed and the original first page is retained. -/
theorem c4_clear_cex :
    (headPage (runA c4ops)).pid = 0 ∧
    (runA c4ops).chain.map PageRec.pid = [0, 1] ∧
    (clearA (runA c4ops)).chain.map PageRec.pid = [1] := by decide

/-- C4 amended: for every arena state, clear() frees all pages of the chain
except the LAST page (the tail), and the retained tail becomes the single
page of the chain (the new head); its first link word is reset to 0, the
prev cursor is reset to NULL, the cursor and end of page are reset to the
retained page, last_allocated_ is reset, the subsequent drain walk is
empty, and calling clear() twice in a row leaves the arena in the same
state as calling it once. -/
theorem c4_clear_amended (s : AState) :
    (clearA s).chain = [lastPage s] ∧
    (clearA s).cursor = ⟨(lastPage s).pid, 0⟩ ∧
    (clearA s).prevCursor = none ∧
    (clearA s).lastAllocated = none ∧
    (clearA s).endOff = capW (lastPage s) ∧
    (clearA s).mem (lastPage s).pid 0 = Cell.nilC ∧
    walkF (clearA s).mem (startA (clearA s)) 1 = some [] ∧
    clearA (clearA s) = clearA s := by
  refine ⟨rfl, rfl, rfl, rfl, rfl, writeMem_eqc _ _ _ _ _ rfl rfl, ?_,
    clearA_idem s⟩
  exact walkF_term (writeMem_eqc _ _ _ _ _ rfl rfl)

def c7ops : List AOp := [AOp.addOp ⟨1, Beh.ok⟩ 8 [8192]]

/-- C7 counterexample: with the tail page capacity 4088 bytes, a payload
allocation of 8192 bytes does not fit; the claim predicts a fresh page of
capacity max(2 * 4088, 2 * 8192) = 16384, but the code passes
max(2 * tail capacity, 2 * (requested size - 1)) = 16382 to the page
constructor (the size was decremented before the computation), and the
usable capacity is further rounded down to a word multiple, 16376 bytes.
Neither equals 16384. -/
theorem c7_growth_cex :
    (runA c7ops).chain.map PageRec.sizeB = [4088, 16382] ∧
    max (2 * 4088) (2 * 8192) = 16384 ∧
    (lastPage (runA c7ops)).sizeB ≠ 16384 ∧
    8 * capW (lastPage (runA c7ops)) ≠ 16384 := by decide

/-- C7 amended: whenever an allocation of a given size does not fit in the
remaining space of the tail page, the freshly allocated page is constructed
with byte size max(2 * tail_capacity, 2 * (requested_size - 1)), where
tail_capacity is the byte capacity of the current tail page; its usable
capacity (end_of_page_) is that size divided by the word size. -/
theorem c7_growth_amended (s : AState) (sz : Nat)
    (hgrow : ¬ (s.cursor.off + wordsFor sz < s.endOff)) :
    lastPage ((alloc sz s).1) = ⟨s.nextPid, max (2 * tailCapB s) (2 * (sz - 1))⟩ ∧
    ((alloc sz s).1).endOff = max (2 * tailCapB s) (2 * (sz - 1)) / 8 := by
  simp only [alloc]
  rw [if_neg hgrow]
  exact ⟨by simp [lastPage, getLastD_snoc], by simp [capW]⟩

/-- Witness for C7 amended: a fresh arena and an 8192 byte request. -/
theorem c7_growth_amended_witness :
    lastPage ((alloc 8192 mkArena).1) =
      ⟨mkArena.nextPid, max (2 * tailCapB mkArena) (2 * (8192 - 1))⟩ ∧
    ((alloc 8192 mkArena).1).endOff =
      max (2 * tailCapB mkArena) (2 * (8192 - 1)) / 8 :=
  c7_growth_amended mkArena 8192 (by decide)

def c8ops : List AOp := [AOp.addOp ⟨2, Beh.ok⟩ 8 [8192]]

/-- C8 counterexample: a record in progress (added with 8 payload bytes,
then extended by a payload allocation of 8192 bytes from its constructor)
cannot be completed on the current page: the chain grows to a second page
mid-record.  The claim says a page-break work item is placed in the
remaining tail of the old page, but the drain walk of the resulting arena
holds exactly the one user record and no page-break: the code merely
redirects the record forward link into the fresh page. -/
theorem c8_pagebreak_cex :
    (runA c8ops).chain.map PageRec.pid = [0, 1] ∧
    walkF (runA c8ops).mem (startA (runA c8ops)) 3 =
      some [WItem.user ⟨2, Beh.ok⟩] := by decide

/-- C8 amended: a page-break work item is emitted exactly when the
allocation that does not fit is the record allocation itself issued by add
(the code guard prev_cursor_ == cursor_): the old tail slot (the cursor
slot of the old last page) then holds a page-break record linking to the
fresh page, followed there by the new user record, and the chain stays
walkable (the invariant is preserved with those two records appended).  A
mid-record payload allocation that straddles emits no page-break: the
record list is unchanged.  The page-break apply does exactly nothing. -/
theorem c8_pagebreak_amended :
    (∀ (s : AState) (recs : List (Addr × WItem)) (u : UItem) (sz : Nat),
      AInv s recs → ¬ (s.cursor.off + wordsFor (sz + 8) < s.endOff) →
      AInv (add u sz s)
        (recs ++ [(s.cursor, WItem.pb), (⟨s.nextPid, 0⟩, WItem.user u)]) ∧
      s.cursor.pid = (lastPage s).pid) ∧
    (∀ (s : AState) (recs : List (Addr × WItem)) (p : Nat),
      AInv s recs → recs ≠ [] → AInv (allocPay p s) recs) ∧
    (∀ ep, applyOne ep WItem.pb = ([], [])) := by
  refine ⟨?_, ?_, fun ep => rfl⟩
  · intro s recs u sz hinv hfit
    exact ⟨add_inv_grow u sz hinv hfit, hinv.cur_pid⟩
  · intro s recs p hinv hne
    exact allocPay_inv p hinv hne

/-- Witness for C8 amended at concrete states: a fresh arena with a record
allocation that does not fit, a one-record arena with a payload allocation
that does not fit, and the page-break apply. -/
theorem c8_pagebreak_amended_witness :
    (AInv (add ⟨1, Beh.ok⟩ 4088 mkArena)
        ([] ++ [(mkArena.cursor, WItem.pb),
          (⟨mkArena.nextPid, 0⟩, WItem.user ⟨1, Beh.ok⟩)]) ∧
      mkArena.cursor.pid = (lastPage mkArena).pid) ∧
    AInv (allocPay 8192 (add ⟨1, Beh.ok⟩ 8 mkArena))
      ([] ++ [(mkArena.cursor, WItem.user ⟨1, Beh.ok⟩)]) ∧
    applyOne true WItem.pb = ([], []) :=
  ⟨c8_pagebreak_amended.1 mkArena [] ⟨1, Beh.ok⟩ 4088 mkArena_inv (by decide),
   c8_pagebreak_amended.2.1 (add ⟨1, Beh.ok⟩ 8 mkArena)
     ([] ++ [(mkArena.cursor, WItem.user ⟨1, Beh.ok⟩)]) 8192
     (add_inv_fit ⟨1, Beh.ok⟩ 8 mkArena_inv (by decide)) (by simp),
   c8_pagebreak_amended.2.2 true⟩

/-! ## Part II: the two-page swap queue (tpd) -/

/-- State of tpd<buffer_type>: the two spin locks, the three sequence
numbers, the producer-local counters, which of the two buffer pages is
currently inserter_ (true: page A), and the sequence number tag of each
page (allocator::sequence_number_).  A lock being true means some thread
holds it; in the atomic-operation semantics below, the inserting lock is
held exactly between begin_insert and the commit of the insert
transaction, and the consuming lock exactly between a successful
try_consume and the commit of the consume transaction. -/
structure TpdState where
  insLocked : Bool
  consLocked : Bool
  lastIns : Nat
  lastEnq : Nat
  lastCons : Nat
  seqGen : Nat
  insSwitched : Nat
  consCouldnt : Nat
  insIsA : Bool
  snA : Nat
  snB : Nat
deriving DecidableEq

/-- Sequence number of the page inserter_ points at. -/
def insSn (s : TpdState) : Nat := cond s.insIsA s.snA s.snB

/-- Sequence number of the page consumer_ points at. -/
def consSn (s : TpdState) : Nat := cond s.insIsA s.snB s.snA

/-- inserter_->set_sequence_number(n). -/
def setInsSn (s : TpdState) (n : Nat) : TpdState :=
  if s.insIsA then { s with snA := n } else { s with snB := n }

/-- tpd::init plus the constructor: both locks unlocked, all three
sequence numbers 1, seq_no_generator_ 1, counters 0, inserter_ = buffer1,
consumer_ = buffer2, both page tags 0. -/
def tpdInit : TpdState :=
  { insLocked := false, consLocked := false, lastIns := 1, lastEnq := 1,
    lastCons := 1, seqGen := 1, insSwitched := 0, consCouldnt := 0,
    insIsA := true, snA := 0, snB := 0 }

/-- tpd::switch_pages: swap the inserter and consumer page pointers, then
set last_enqueued_sequence_number_ to the sequence number of the page now
exposed to the consumer (the old inserter page). -/
def switchPages (s : TpdState) : TpdState :=
  { s with insIsA := !s.insIsA, lastEnq := insSn s }

/-- tpd::empty: last_inserted_sequence_number_ equals
last_consumed_sequence_number_. -/
def tpdEmpty (s : TpdState) : Bool := s.lastIns == s.lastCons

/-- The call sites of switch_pages. -/
inductive SwapSite
  | commitI
  | tryC
  | commitC
deriving DecidableEq

/-- A swap event: the call site and the lock state at the moment
switch_pages runs (for the two commit sites both flags describe locks held
by the calling thread; for the try_consume site the cons flag records the
global consuming lock state, which the calling thread has not acquired). -/
structure SwapEvent where
  site : SwapSite
  ins : Bool
  cons : Bool
deriving DecidableEq

/-- tpd::begin_insert executed to completion (the lock acquisition blocks
until the inserting lock is free, so the step is enabled only then; see
stepT): lock, draw a fresh sequence number, compare the inserter page tag
with last_enqueued_ and clear the page if it is strictly behind (the
clear acts on the arena and is surfaced through the returned flag), stamp
the page and last_inserted_.  Returns the new state, the
inserting_into_new_page result, and whether the page was cleared. -/
def beginInsert (s : TpdState) : TpdState × Bool × Bool :=
  ({ setInsSn { s with insLocked := true, seqGen := s.seqGen + 1 } (s.seqGen + 1)
      with lastIns := s.seqGen + 1 },
    decide (insSn s ≤ s.lastEnq), decide (insSn s < s.lastEnq))

/-- tpd::insert_transaction::commit, the body guarded by parent_: if the
consumer has recorded failed swap attempts (inserter_switched_pages_ !=
consumer_couldnt_switch_), try-acquire the consuming lock and, if it is
obtained and the consumer has caught up, switch pages and record the
catch-up; finally release the inserting lock.  The swap happens while the
calling thread holds both locks. -/
def insertCommit (s : TpdState) : TpdState × List SwapEvent :=
  if s.insSwitched ≠ s.consCouldnt then
    if s.consLocked = false then
      if ¬ (s.lastEnq > s.lastCons) then
        ({ switchPages { s with insSwitched := s.consCouldnt } with insLocked := false },
          [⟨SwapSite.commitI, true, true⟩])
      else ({ s with insLocked := false }, [])
    else ({ s with insLocked := false }, [])
  else ({ s with insLocked := false }, [])

/-- Outcome encoding of tpd_consume_result. -/
def cr_no_more_work : Nat := 0

def cr_consumed : Nat := 1

def cr_queue_not_empty : Nat := 2

def cr_consumer_congestion : Nat := 4

/-- cr_success = cr_consumed | cr_queue_not_empty. -/
def cr_success : Nat := cr_consumed ||| cr_queue_not_empty

/-- cr_too_many_consumers = cr_consumer_congestion | cr_queue_not_empty. -/
def cr_too_many_consumers : Nat := cr_consumer_congestion ||| cr_queue_not_empty

/-- tpd_consume_result::consumed(): 0 != (outcome & cr_consumed). -/
def crConsumed (r : Nat) : Bool := r &&& cr_consumed != 0

/-- tpd_consume_result::queue_not_empty(). -/
def crQueueNotEmpty (r : Nat) : Bool := r &&& cr_queue_not_empty != 0

/-- tpd_consume_result::too_many_consumers(). -/
def crTooMany (r : Nat) : Bool := r &&& cr_consumer_congestion != 0

/-- The tail of tpd::try_consume: try-lock the consuming lock; on failure
report congestion, otherwise bind the transaction, set last_consumed_ to
the consumer page tag and report success. -/
def consumePhase (s : TpdState) (evs : List SwapEvent) :
    TpdState × Nat × List SwapEvent :=
  if s.consLocked then (s, cr_too_many_consumers, evs)
  else ({ s with consLocked := true, lastCons := consSn s }, cr_success, evs)

/-- tpd::try_consume.  If nothing has been handed over
(last_enqueued_ not beyond last_consumed_), try-acquire the inserting
lock: on failure bump consumer_couldnt_switch_ and return
cr_queue_not_empty; if held and last_inserted_ > last_enqueued_, switch
pages (at this moment the calling thread holds only the try-acquired
inserting lock: the consuming lock is not acquired before the switch, and
the event records the global consuming lock state), then recheck and fall
through to the consume phase, or return cr_no_more_work.  The transient
inserting try-lock is released inside the step. -/
def tryConsume (s : TpdState) : TpdState × Nat × List SwapEvent :=
  if ¬ (s.lastEnq > s.lastCons) then
    if s.insLocked then
      ({ s with consCouldnt := s.consCouldnt + 1 }, cr_queue_not_empty, [])
    else
      if s.lastIns > s.lastEnq then
        if ¬ ((switchPages s).lastEnq > (switchPages s).lastCons) then
          (switchPages s, cr_no_more_work, [⟨SwapSite.tryC, true, s.consLocked⟩])
        else consumePhase (switchPages s) [⟨SwapSite.tryC, true, s.consLocked⟩]
      else (s, cr_no_more_work, [])
  else consumePhase s []

/-- tpd::consume_transaction::commit, the body guarded by parent_:
try-acquire the inserting lock; if obtained and
last_inserted_ > last_enqueued_, switch pages; release both locks. -/
def consumeCommit (s : TpdState) : TpdState × List SwapEvent :=
  if s.insLocked = false then
    if s.lastIns > s.lastEnq then
      ({ switchPages s with consLocked := false }, [⟨SwapSite.commitC, true, true⟩])
    else ({ s with consLocked := false }, [])
  else ({ s with consLocked := false }, [])

/-- tpd::warmup_before_inserting: under the inserting lock, if the
inserter page tag is behind last_enqueued_, clear the page (arena side)
and stamp it with last_enqueued_. -/
def warmup (s : TpdState) : TpdState :=
  if insSn s < s.lastEnq then setInsSn s s.lastEnq else s

/-- The queue operations, each executed atomically. -/
inductive TOp
  | beginI
  | commitI
  | tryC
  | commitC
  | warm
deriving DecidableEq

/-- One operation against the queue.  begin_insert and warmup block on the
inserting lock, so those steps are enabled only when it is free; a commit
is issued only by the thread whose transaction is open, hence only while
the corresponding lock is held.  A disabled operation leaves the state
unchanged. -/
def stepT (s : TpdState) (op : TOp) : TpdState × List SwapEvent :=
  match op with
  | .beginI => if s.insLocked then (s, []) else ((beginInsert s).1, [])
  | .commitI => if s.insLocked then insertCommit s else (s, [])
  | .tryC =>
    ((tryConsume s).1, (tryConsume s).2.2)
  | .commitC => if s.consLocked then consumeCommit s else (s, [])
  | .warm => if s.insLocked then (s, []) else (warmup s, [])

/-- Execute a sequence of queue operations from a state, collecting every
swap event. -/
def execT (s : TpdState) : List TOp → TpdState × List SwapEvent
  | [] => (s, [])
  | op :: ops =>
    ((execT (stepT s op).1 ops).1, (stepT s op).2 ++ (execT (stepT s op).1 ops).2)

/-- tpd::insert_transaction: buffer_ (which page, when bound) and
parent_ (whether bound to a queue). -/
structure InsertTxn where
  buffer : Option Bool
  parent : Bool
deriving DecidableEq

/-- tpd::consume_transaction. -/
structure ConsumeTxn where
  buffer : Option Bool
  parent : Bool
deriving DecidableEq

/-- insert_transaction::commit: if parent_ is set, run the guarded body
(possible swap plus release of the inserting lock); in every case null
buffer_ and parent_. -/
def insTxnCommit (t : InsertTxn) (s : TpdState) : InsertTxn × TpdState :=
  if t.parent then (⟨none, false⟩, (insertCommit s).1)
  else (⟨none, false⟩, s)

/-- consume_transaction::commit: if parent_ is set, run the guarded body
(possible swap plus release of the consuming lock); in every case null
buffer_ and parent_. -/
def consTxnCommit (t : ConsumeTxn) (s : TpdState) : ConsumeTxn × TpdState :=
  if t.parent then (⟨none, false⟩, (consumeCommit s).1)
  else (⟨none, false⟩, s)

/-! ### Queue invariant -/

/-- Invariant of every reachable queue state: the three sequence numbers
are ordered, the generator bounds them, the inserter page tag equals
last_inserted_ while a producer transaction is open and also whenever
work is pending hand-off, the consumer page tag never exceeds
last_enqueued_ and equals it while unconsumed work is exposed. -/
structure TInv (s : TpdState) : Prop where
  h1 : s.lastCons ≤ s.lastEnq
  h2 : s.lastEnq ≤ s.lastIns
  h3 : s.lastIns ≤ s.seqGen
  h4 : s.insLocked = true → insSn s = s.lastIns ∧ s.lastEnq < s.lastIns
  h5 : s.lastEnq < s.lastIns → insSn s = s.lastIns
  h6 : consSn s ≤ s.lastEnq
  h7 : s.lastCons < s.lastEnq → consSn s = s.lastEnq
  h8 : insSn s ≤ s.lastIns

theorem tpdInit_inv : TInv tpdInit := by
  refine ⟨?_, ?_, ?_, ?_, ?_, ?_, ?_, ?_⟩ <;> simp [tpdInit, insSn, consSn]

theorem beginInsert_inv {s : TpdState} (h : TInv s) : TInv (beginInsert s).1 := by
  obtain ⟨h1, h2, h3, h4, h5, h6, h7, h8⟩ := h
  cases hb : s.insIsA <;>
    simp only [insSn, consSn, hb, cond_true, cond_false] at h5 h6 h7 h8 <;>
    refine ⟨?_, ?_, ?_, ?_, ?_, ?_, ?_, ?_⟩ <;>
    simp [beginInsert, setInsSn, insSn, consSn, hb] <;>
    omega

theorem insertCommit_inv {s : TpdState} (h : TInv s) (hl : s.insLocked = true) :
    TInv (insertCommit s).1 := by
  obtain ⟨h1, h2, h3, h4, h5, h6, h7, h8⟩ := h
  obtain ⟨h4a, h4b⟩ := h4 hl
  unfold insertCommit
  split_ifs with g1 g2 g3 <;>
    (cases hb : s.insIsA <;>
      simp only [insSn, consSn, hb, cond_true, cond_false] at h4a h5 h6 h7 h8 <;>
      refine ⟨?_, ?_, ?_, ?_, ?_, ?_, ?_, ?_⟩ <;>
      simp [switchPages, insSn, consSn, hb] <;>
      omega)

theorem tryConsume_inv {s : TpdState} (h : TInv s) : TInv (tryConsume s).1 := by
  obtain ⟨h1, h2, h3, h4, h5, h6, h7, h8⟩ := h
  unfold tryConsume consumePhase
  split_ifs with g1 g2 g3 g4 g5 g6 g7 <;>
    (cases hb : s.insIsA <;>
      simp only [insSn, consSn, hb, cond_true, cond_false] at h5 h6 h7 h8 <;>
      first
      | (refine ⟨?_, ?_, ?_, ?_, ?_, ?_, ?_, ?_⟩ <;>
          simp_all [switchPages, insSn, consSn, hb] <;>
          omega)
      | (exact ⟨h1, h2, h3, h4, by simp [insSn, hb]; omega,
          by simp [consSn, hb]; omega, by simp [consSn, hb]; omega,
          by simp [insSn, hb]; omega⟩))

theorem consumeCommit_inv {s : TpdState} (h : TInv s) : TInv (consumeCommit s).1 := by
  obtain ⟨h1, h2, h3, h4, h5, h6, h7, h8⟩ := h
  unfold consumeCommit
  split_ifs with g1 g2 <;>
    (cases hb : s.insIsA <;>
      simp only [insSn, consSn, hb, cond_true, cond_false] at h5 h6 h7 h8 <;>
      refine ⟨?_, ?_, ?_, ?_, ?_, ?_, ?_, ?_⟩ <;>
      simp_all [switchPages, insSn, consSn, hb] <;>
      omega)

theorem warmup_inv {s : TpdState} (h : TInv s) : TInv (warmup s) := by
  obtain ⟨h1, h2, h3, h4, h5, h6, h7, h8⟩ := h
  unfold warmup
  split_ifs with g1 <;>
    (cases hb : s.insIsA <;>
      simp only [insSn, consSn, hb, cond_true, cond_false] at g1 h5 h6 h7 h8 ⊢ <;>
      refine ⟨?_, ?_, ?_, ?_, ?_, ?_, ?_, ?_⟩ <;>
      simp_all [setInsSn, insSn, consSn, hb] <;>
      omega)

theorem stepT_inv {s : TpdState} (op : TOp) (h : TInv s) : TInv (stepT s op).1 := by
  cases op with
  | beginI =>
    by_cases hl : s.insLocked <;> simp [stepT, hl]
    · exact h
    · exact beginInsert_inv h
  | commitI =>
    by_cases hl : s.insLocked <;> simp [stepT, hl]
    · exact insertCommit_inv h hl
    · exact h
  | tryC =>
    simpa [stepT] using tryConsume_inv h
  | commitC =>
    by_cases hl : s.consLocked <;> simp [stepT, hl]
    · exact consumeCommit_inv h
    · exact h
  | warm =>
    by_cases hl : s.insLocked <;> simp [stepT, hl]
    · exact h
    · exact warmup_inv h

theorem execT_inv (ops : List TOp) : ∀ {s : TpdState}, TInv s → TInv (execT s ops).1 := by
  induction ops with
  | nil => intro s h; exact h
  | cons op tl ih =>
    intro s h
    exact ih (stepT_inv op h)

theorem stepT_mono {s : TpdState} (op : TOp) (h : TInv s) :
    s.lastIns ≤ (stepT s op).1.lastIns ∧ s.lastEnq ≤ (stepT s op).1.lastEnq ∧
      s.lastCons ≤ (stepT s op).1.lastCons := by
  obtain ⟨h1, h2, h3, h4, h5, h6, h7, h8⟩ := h
  cases op with
  | beginI =>
    by_cases hl : s.insLocked <;>
      cases hb : s.insIsA <;>
      simp [stepT, hl, beginInsert, setInsSn, insSn, consSn, hb] <;>
      omega
  | commitI =>
    by_cases hl : s.insLocked
    · obtain ⟨h4a, h4b⟩ := h4 hl
      cases hb : s.insIsA <;>
        simp only [insSn, consSn, hb, cond_true, cond_false] at h4a h5 h6 h7 h8 <;>
        simp only [stepT, hl, if_true, insertCommit] <;>
        split_ifs <;>
        simp [switchPages, insSn, consSn, hb] <;>
        omega
    · simp [stepT, hl]
  | tryC =>
    cases hb : s.insIsA <;>
      simp only [insSn, consSn, hb, cond_true, cond_false] at h5 h6 h7 h8 <;>
      simp only [stepT, tryConsume, consumePhase, switchPages] <;>
      split_ifs <;>
      simp [insSn, consSn, hb] <;>
      omega
  | commitC =>
    by_cases hl : s.consLocked
    · cases hb : s.insIsA <;>
        simp only [insSn, consSn, hb, cond_true, cond_false] at h5 h6 h7 h8 <;>
        simp only [stepT, hl, if_true, consumeCommit] <;>
        split_ifs <;>
        simp [switchPages, insSn, consSn, hb] <;>
        omega
    · simp [stepT, hl]
  | warm =>
    by_cases hl : s.insLocked
    · simp [stepT, hl]
    · cases hb : s.insIsA <;>
        simp only [stepT, hl, warmup, if_false, Bool.false_eq_true, ite_false] <;>
        split_ifs <;>
        simp [setInsSn, insSn, consSn, hb] <;>
        omega

/-- The lock discipline of a swap event: the inserting lock is held by the
swapping thread, and at the commit call sites the consuming lock is held
by it too. -/
def goodEvent (e : SwapEvent) : Prop :=
  e.ins = true ∧
    ((e.site = SwapSite.commitI ∨ e.site = SwapSite.commitC) → e.cons = true)

theorem stepT_events {s : TpdState} (op : TOp) :
    ∀ e ∈ (stepT s op).2, goodEvent e := by
  intro e he
  cases op with
  | beginI =>
    by_cases hl : s.insLocked <;> simp [stepT, hl] at he
  | commitI =>
    by_cases hl : s.insLocked
    · simp only [stepT, hl, if_true] at he
      unfold insertCommit at he
      split_ifs at he <;> simp_all [goodEvent]
    · simp [stepT, hl] at he
  | tryC =>
    simp only [stepT] at he
    unfold tryConsume consumePhase at he
    split_ifs at he <;> simp_all [goodEvent]
  | commitC =>
    by_cases hl : s.consLocked
    · simp only [stepT, hl, if_true] at he
      unfold consumeCommit at he
      split_ifs at he <;> simp_all [goodEvent]
    · simp [stepT, hl] at he
  | warm =>
    by_cases hl : s.insLocked <;> simp [stepT, hl] at he

theorem execT_events (ops : List TOp) :
    ∀ {s : TpdState}, ∀ e ∈ (execT s ops).2, goodEvent e := by
  induction ops with
  | nil => intro s e he; simp [execT] at he
  | cons op tl ih =>
    intro s e he
    simp only [execT, List.mem_append] at he
    rcases he with he | he
    · exact stepT_events op e he
    · exact ih e he

/-! ## Claim theorems for the two-page swap queue -/

/-- C3 counterexample: in the reachable execution begin_insert, commit,
try_consume (one item submitted, then the consumer drains), the swap of
inserter_ and consumer_ is performed inside try_consume while the
consuming lock is NOT held (by anyone, in particular not by the thread
performing the swap): try_consume only try-acquires the inserting lock
before switching (tpd.hpp line 259) and attempts the consuming lock only
afterwards (line 271).  The single swap event of the run carries
cons = false, refuting the claim that every switch_pages call site runs
with both locks held. -/
theorem c3_swap_locks_cex :
    (execT tpdInit [TOp.beginI, TOp.commitI, TOp.tryC]).2 =
      [⟨SwapSite.tryC, true, false⟩] := by decide

/-- C3 amended: in every execution of the queue, every switch_pages call
runs while the calling thread holds the inserting lock; at the two commit
call sites (insert_transaction::commit and consume_transaction::commit)
the calling thread additionally holds the consuming lock, but at the call
site inside try_consume the consuming lock is not acquired by the
swapping thread (the recorded flag is the global consuming lock state,
false in any single-consumer run such as the counterexample run). -/
theorem c3_swap_locks_amended (ops : List TOp) :
    ∀ e ∈ (execT tpdInit ops).2, e.ins = true ∧
      ((e.site = SwapSite.commitI ∨ e.site = SwapSite.commitC) → e.cons = true) :=
  fun e he => execT_events ops e he

/-- Witness for C3 amended: the event of the counterexample run satisfies
the amended lock discipline. -/
theorem c3_swap_locks_amended_witness :
    (⟨SwapSite.tryC, true, false⟩ : SwapEvent).ins = true ∧
      (((⟨SwapSite.tryC, true, false⟩ : SwapEvent).site = SwapSite.commitI ∨
        (⟨SwapSite.tryC, true, false⟩ : SwapEvent).site = SwapSite.commitC) →
        (⟨SwapSite.tryC, true, false⟩ : SwapEvent).cons = true) :=
  c3_swap_locks_amended [TOp.beginI, TOp.commitI, TOp.tryC]
    ⟨SwapSite.tryC, true, false⟩ (by decide)

/-- C6: in every state of the queue reachable from init by the queue
operations, last_inserted_sn >= last_enqueued_sn >= last_consumed_sn, and
each of the three sequence numbers is non-decreasing across every further
operation (begin_insert, insert commit, try_consume, consume commit, and
warmup; switch_pages only ever runs inside these operations, so its
effect is covered). -/
theorem c6_sequence_monotone (ops : List TOp) (op : TOp) :
    ((execT tpdInit ops).1.lastCons ≤ (execT tpdInit ops).1.lastEnq ∧
     (execT tpdInit ops).1.lastEnq ≤ (execT tpdInit ops).1.lastIns) ∧
    ((execT tpdInit ops).1.lastIns ≤ (stepT (execT tpdInit ops).1 op).1.lastIns ∧
     (execT tpdInit ops).1.lastEnq ≤ (stepT (execT tpdInit ops).1 op).1.lastEnq ∧
     (execT tpdInit ops).1.lastCons ≤ (stepT (execT tpdInit ops).1 op).1.lastCons) := by
  have hinv := execT_inv ops tpdInit_inv
  exact ⟨⟨hinv.h1, hinv.h2⟩, stepT_mono op hinv⟩

/-- C9: for every state, the result value of try_consume has the consumed
bit set only when it is cr_success, whose queue_not_empty bit is also set
(cr_success is defined as the union of cr_consumed and
cr_queue_not_empty), so a caller can never observe a consumed result for
a queue proven empty. -/
theorem c9_consumed_not_empty :
    (∀ s : TpdState, crConsumed (tryConsume s).2.1 = true →
      (tryConsume s).2.1 = cr_success ∧
      crQueueNotEmpty (tryConsume s).2.1 = true) ∧
    cr_success = cr_consumed ||| cr_queue_not_empty := by
  refine ⟨?_, rfl⟩
  intro s h
  unfold tryConsume consumePhase at h ⊢
  split_ifs at h ⊢ <;> dsimp only at h ⊢ <;> revert h <;> decide

/-- Witness for C9 at a state with exposed unconsumed work. -/
theorem c9_consumed_not_empty_witness :
    (tryConsume { tpdInit with lastEnq := 2 }).2.1 = cr_success ∧
      crQueueNotEmpty (tryConsume { tpdInit with lastEnq := 2 }).2.1 = true :=
  c9_consumed_not_empty.1 { tpdInit with lastEnq := 2 } (by decide)

def c10insSt : TpdState := { tpdInit with insLocked := true }

def c10consSt : TpdState := { tpdInit with consLocked := true }

/-- C10: committing an insert or consume transaction is idempotent.  The
first commit of a bound transaction nulls its buffer_ and parent_
pointers and leaves the corresponding lock released; a later commit of
the same transaction (in particular the one run by the destructor after
an explicit commit) changes neither the transaction nor the queue state,
so each lock is released exactly once per begun transaction. -/
theorem c10_commit_idempotent :
    (∀ (t : InsertTxn) (s : TpdState), t.parent = true →
      (insTxnCommit t s).1 = ⟨none, false⟩ ∧
      ((insTxnCommit t s).2).insLocked = false ∧
      insTxnCommit (insTxnCommit t s).1 (insTxnCommit t s).2 =
        ((insTxnCommit t s).1, (insTxnCommit t s).2)) ∧
    (∀ (t : ConsumeTxn) (s : TpdState), t.parent = true →
      (consTxnCommit t s).1 = ⟨none, false⟩ ∧
      ((consTxnCommit t s).2).consLocked = false ∧
      consTxnCommit (consTxnCommit t s).1 (consTxnCommit t s).2 =
        ((consTxnCommit t s).1, (consTxnCommit t s).2)) := by
  constructor
  · intro t s hp
    refine ⟨by simp [insTxnCommit, hp], ?_, by simp [insTxnCommit, hp]⟩
    simp only [insTxnCommit, hp, if_true]
    unfold insertCommit
    split_ifs <;> rfl
  · intro t s hp
    refine ⟨by simp [consTxnCommit, hp], ?_, by simp [consTxnCommit, hp]⟩
    simp only [consTxnCommit, hp, if_true]
    unfold consumeCommit
    split_ifs <;> rfl

/-- Witness for C10 at bound transactions over locked queue states. -/
theorem c10_commit_idempotent_witness :
    ((insTxnCommit ⟨some true, true⟩ c10insSt).1 = ⟨none, false⟩ ∧
      ((insTxnCommit ⟨some true, true⟩ c10insSt).2).insLocked = false ∧
      insTxnCommit (insTxnCommit ⟨some true, true⟩ c10insSt).1
          (insTxnCommit ⟨some true, true⟩ c10insSt).2 =
        ((insTxnCommit ⟨some true, true⟩ c10insSt).1,
         (insTxnCommit ⟨some true, true⟩ c10insSt).2)) ∧
    ((consTxnCommit ⟨some false, true⟩ c10consSt).1 = ⟨none, false⟩ ∧
      ((consTxnCommit ⟨some false, true⟩ c10consSt).2).consLocked = false ∧
      consTxnCommit (consTxnCommit ⟨some false, true⟩ c10consSt).1
          (consTxnCommit ⟨some false, true⟩ c10consSt).2 =
        ((consTxnCommit ⟨some false, true⟩ c10consSt).1,
         (consTxnCommit ⟨some false, true⟩ c10consSt).2)) :=
  ⟨c10_commit_idempotent.1 ⟨some true, true⟩ c10insSt rfl,
   c10_commit_idempotent.2 ⟨some false, true⟩ c10consSt rfl⟩

/-! ## Part III: the stream layer -/

/-- State of one stream: the queue, the work items currently held by each
of the two arena pages (page A and page B, abstracted to the tags of the
items placed in them), the sink output so far, and the ghost list of all
items ever submitted to the stream. -/
structure SState where
  tps : TpdState
  itemsA : List Nat
  itemsB : List Nat
  sink : List Nat
  submitted : List Nat
deriving DecidableEq

/-- Items of the page currently pointed at by inserter_ of a queue state. -/
def insItemsAt (t : TpdState) (ss : SState) : List Nat :=
  cond t.insIsA ss.itemsA ss.itemsB

/-- Items of the page currently pointed at by consumer_ of a queue state. -/
def consItemsAt (t : TpdState) (ss : SState) : List Nat :=
  cond t.insIsA ss.itemsB ss.itemsA

/-- stream submit (operator<<, write, when_done, ...): begin_insert on the
queue (blocks on the inserting lock, hence only runs when it is free),
add the work item into the inserter page arena (begin_insert clears that
arena first when the page was handed back), signal_work_available (no
state effect here), and commit the insert transaction on scope exit. -/
def submit (x : Nat) (ss : SState) : SState :=
  if ss.tps.insLocked then ss
  else
    { ss with
      tps := (insertCommit (beginInsert ss.tps).1).1,
      itemsA := if ss.tps.insIsA
        then (if (beginInsert ss.tps).2.2 then [] else ss.itemsA) ++ [x]
        else ss.itemsA,
      itemsB := if ss.tps.insIsA
        then ss.itemsB
        else (if (beginInsert ss.tps).2.2 then [] else ss.itemsB) ++ [x],
      submitted := ss.submitted ++ [x] }

/-- One iteration of the loop in stream::impl::try_drain: try_consume; if
it consumed, drain the acquired consumer page arena into the sink and
commit the consume transaction when the transaction leaves scope.
Returns whether the iteration consumed. -/
def tryDrainStep (ss : SState) : SState × Bool :=
  if crConsumed (tryConsume ss.tps).2.1 then
    ({ ss with
        tps := (consumeCommit (tryConsume ss.tps).1).1,
        sink := ss.sink ++ consItemsAt (tryConsume ss.tps).1 ss },
      true)
  else ({ ss with tps := (tryConsume ss.tps).1 }, false)

/-- The fuelled loop of stream::impl::try_drain: iterate tryDrainStep
until an iteration does not consume; the flag tells whether any
iteration consumed. -/
def tryDrainF : Nat → SState → SState × Bool
  | 0, ss => (ss, false)
  | fuel + 1, ss =>
    if (tryDrainStep ss).2
    then ((tryDrainF fuel (tryDrainStep ss).1).1, true)
    else ((tryDrainStep ss).1, false)

/-- stream::try_drain: the loop runs until try_consume stops consuming;
one consumed iteration raises last_consumed_ strictly towards
last_inserted_, so last_inserted_ - last_consumed_ + 1 iterations always
suffice and the fuelled loop equals the unbounded loop of the code. -/
def tryDrain (ss : SState) : SState × Bool :=
  tryDrainF (ss.tps.lastIns - ss.tps.lastCons + 1) ss

/-- Stream operations: a producer submit or one consumer drain
iteration. -/
inductive SOp
  | sub (x : Nat)
  | drainStep
deriving DecidableEq

def stepS (ss : SState) : SOp → SState
  | .sub x => submit x ss
  | .drainStep => (tryDrainStep ss).1

/-- Stream at construction: fresh queue over two empty arenas. -/
def initS : SState :=
  { tps := tpdInit, itemsA := [], itemsB := [], sink := [], submitted := [] }

def execS (ops : List SOp) : SState := ops.foldl stepS initS

/-- service::impl::remove: erase the first occurrence of the stream from
the registered list. -/
def removeOne : List Nat → Nat → List Nat
  | [], _ => []
  | y :: ys, x => if y = x then ys else y :: removeOne ys x

/-- The loop of stream::~stream: while the queue is not empty
(last_inserted_ != last_consumed_), try_drain and flush.  Fuelled; none
means the fuel ran out before the loop exited. -/
def dtorLoop : Nat → SState → Option SState
  | 0, _ => none
  | fuel + 1, ss =>
    if tpdEmpty ss.tps then some ss
    else dtorLoop fuel (tryDrain ss).1

/-- stream::~stream: first deregister from the service, then drain
synchronously until the queue is empty, and only then free the stream
state (the returned pair is what remains after the destructor: the
service registry without this stream, and the final drained state; a
returned value is only produced once the drain loop has exited). -/
def streamDtor (reg : List Nat) (sid : Nat) (ss : SState) :
    Option (List Nat × SState) :=
  (dtorLoop 2 ss).map (fun ss2 => (removeOne reg sid, ss2))

/-! ### Stream invariant -/

/-- Invariant of every quiescent reachable stream state (no transaction
open): the queue invariant holds, both locks are free, the ghost list of
submitted items is accounted for as the sink output followed by the
unconsumed items of the exposed consumer page followed by the pending
items of the inserter page, and an inserter page whose tag has caught up
with last_enqueued_ while nothing is pending holds no live items (it was
cleared by begin_insert or warmup). -/
structure SInv (ss : SState) : Prop where
  tinv : TInv ss.tps
  insFree : ss.tps.insLocked = false
  consFree : ss.tps.consLocked = false
  acct : ss.submitted = ss.sink ++
    (if ss.tps.lastCons < ss.tps.lastEnq then consItemsAt ss.tps ss else []) ++
    (if ss.tps.lastEnq < ss.tps.lastIns then insItemsAt ss.tps ss else [])
  stale : ss.tps.lastEnq = ss.tps.lastIns → insSn ss.tps = ss.tps.lastEnq →
    insItemsAt ss.tps ss = []

theorem initS_inv : SInv initS := by
  refine ⟨tpdInit_inv, rfl, rfl, ?_, ?_⟩
  · simp [initS, tpdInit, insItemsAt, consItemsAt]
  · intro hA hB
    simp [initS, tpdInit, insSn] at hB

theorem beginInsert_locked (t : TpdState) : (beginInsert t).1.insLocked = true := by
  by_cases hb : t.insIsA <;> simp [beginInsert, setInsSn, hb]

theorem beginInsert_fields (t : TpdState) :
    (beginInsert t).1.lastIns = t.seqGen + 1 ∧
    (beginInsert t).1.lastEnq = t.lastEnq ∧
    (beginInsert t).1.lastCons = t.lastCons ∧
    (beginInsert t).1.seqGen = t.seqGen + 1 ∧
    (beginInsert t).1.insSwitched = t.insSwitched ∧
    (beginInsert t).1.consCouldnt = t.consCouldnt ∧
    (beginInsert t).1.consLocked = t.consLocked ∧
    (beginInsert t).1.insIsA = t.insIsA ∧
    insSn (beginInsert t).1 = t.seqGen + 1 ∧
    consSn (beginInsert t).1 = consSn t := by
  by_cases hb : t.insIsA <;>
    simp [beginInsert, setInsSn, insSn, consSn, hb]

theorem beginInsert_cleared (t : TpdState) :
    (beginInsert t).2.2 = decide (insSn t < t.lastEnq) := rfl

theorem insertCommit_unlocks (t : TpdState) :
    (insertCommit t).1.insLocked = false := by
  unfold insertCommit switchPages
  split_ifs <;> rfl

theorem insertCommit_consLocked (t : TpdState) :
    (insertCommit t).1.consLocked = t.consLocked := by
  unfold insertCommit switchPages
  split_ifs <;> rfl

theorem consSn_switch (t : TpdState) : consSn (switchPages t) = insSn t := by
  by_cases hb : t.insIsA <;> simp [switchPages, insSn, consSn, hb]

theorem insSn_switch (t : TpdState) : insSn (switchPages t) = consSn t := by
  by_cases hb : t.insIsA <;> simp [switchPages, insSn, consSn, hb]

/-- The two outcomes of the commit of an insert transaction: either the
producer takes responsibility and swaps (failed consumer switch attempts
recorded, consuming lock free, consumer caught up), or it only releases
the inserting lock. -/
theorem insertCommit_spec (t : TpdState) :
    (t.insSwitched ≠ t.consCouldnt ∧ t.consLocked = false ∧
      ¬ (t.lastEnq > t.lastCons) ∧
      (insertCommit t).1 = { t with
        insIsA := (!t.insIsA)
        lastEnq := insSn t
        insSwitched := t.consCouldnt
        insLocked := false }) ∨
    ((insertCommit t).1 = { t with insLocked := false }) := by
  by_cases g1 : t.insSwitched ≠ t.consCouldnt
  · by_cases g2 : t.consLocked = false
    · by_cases g3 : t.lastEnq > t.lastCons
      · right
        simp [insertCommit, g1, g2, g3]
      · left
        refine ⟨g1, g2, g3, ?_⟩
        simp [insertCommit, switchPages, insSn, g1, g2, g3]
    · right
      simp [insertCommit, g1, g2]
  · right
    simp [insertCommit, g1]

/-- The three outcomes of try_consume from a quiescent state satisfying
the queue invariant: work already exposed is consumed directly; pending
work is switched in and consumed; an empty queue is reported without a
state change. -/
theorem tryConsume_spec (t : TpdState) (ht : TInv t)
    (hif : t.insLocked = false) (hcf : t.consLocked = false) :
    (t.lastCons < t.lastEnq ∧ (tryConsume t).2.1 = cr_success ∧
      (tryConsume t).1 = { t with consLocked := true, lastCons := consSn t }) ∨
    (t.lastCons = t.lastEnq ∧ t.lastEnq < t.lastIns ∧
      (tryConsume t).2.1 = cr_success ∧
      (tryConsume t).1 = { t with
        insIsA := (!t.insIsA)
        lastEnq := insSn t
        consLocked := true
        lastCons := insSn t }) ∨
    (t.lastCons = t.lastEnq ∧ t.lastEnq = t.lastIns ∧
      (tryConsume t).2.1 = cr_no_more_work ∧ (tryConsume t).1 = t) := by
  obtain ⟨h1, h2, h3, h4, h5, h6, h7, h8⟩ := ht
  by_cases hEC : t.lastCons < t.lastEnq
  · left
    refine ⟨hEC, ?_, ?_⟩ <;>
      simp [tryConsume, consumePhase, hif, hcf, hEC]
  · have hCE : t.lastCons = t.lastEnq := le_antisymm h1 (not_lt.mp hEC)
    by_cases hEL : t.lastEnq < t.lastIns
    · right; left
      have hgt : t.lastCons < t.lastIns := by omega
      refine ⟨hCE, hEL, ?_, ?_⟩
      · cases hb : t.insIsA
        · have hsnc : t.snB = t.lastIns := by
            simpa [insSn, hb] using h5 hEL
          simp [tryConsume, consumePhase, switchPages, insSn, consSn, hb,
            hif, hcf, hEC, hEL, hsnc, hgt]
        · have hsnc : t.snA = t.lastIns := by
            simpa [insSn, hb] using h5 hEL
          simp [tryConsume, consumePhase, switchPages, insSn, consSn, hb,
            hif, hcf, hEC, hEL, hsnc, hgt]
      · cases hb : t.insIsA
        · have hsnc : t.snB = t.lastIns := by
            simpa [insSn, hb] using h5 hEL
          simp [tryConsume, consumePhase, switchPages, insSn, consSn, hb,
            hif, hcf, hEC, hEL, hsnc, hgt]
        · have hsnc : t.snA = t.lastIns := by
            simpa [insSn, hb] using h5 hEL
          simp [tryConsume, consumePhase, switchPages, insSn, consSn, hb,
            hif, hcf, hEC, hEL, hsnc, hgt]
    · right; right
      have hEL2 : t.lastEnq = t.lastIns := le_antisymm h2 (not_lt.mp hEL)
      refine ⟨hCE, hEL2, ?_, ?_⟩ <;>
        simp [tryConsume, hEC, hif, hEL]

/-- The two outcomes of the commit of a consume transaction. -/
theorem consumeCommit_spec (t : TpdState) :
    (t.insLocked = false ∧ t.lastEnq < t.lastIns ∧
      (consumeCommit t).1 = { t with
        insIsA := (!t.insIsA)
        lastEnq := insSn t
        consLocked := false }) ∨
    ((t.insLocked = true ∨ ¬ t.lastEnq < t.lastIns) ∧
      (consumeCommit t).1 = { t with consLocked := false }) := by
  by_cases g1 : t.insLocked = false
  · by_cases g2 : t.lastEnq < t.lastIns
    · left
      refine ⟨g1, g2, ?_⟩
      simp [consumeCommit, switchPages, insSn, g1, g2]
    · right
      refine ⟨Or.inr g2, ?_⟩
      simp [consumeCommit, g1, g2]
  · right
    refine ⟨Or.inl (by simpa using g1), ?_⟩
    simp [consumeCommit, g1]

theorem submit_eq (x : Nat) (ss : SState) (hif : ss.tps.insLocked = false) :
    submit x ss = { ss with
      tps := (insertCommit (beginInsert ss.tps).1).1
      itemsA := if ss.tps.insIsA
        then (if (beginInsert ss.tps).2.2 then [] else ss.itemsA) ++ [x]
        else ss.itemsA
      itemsB := if ss.tps.insIsA
        then ss.itemsB
        else (if (beginInsert ss.tps).2.2 then [] else ss.itemsB) ++ [x]
      submitted := ss.submitted ++ [x] } := by
  unfold submit
  rw [if_neg (by simp [hif])]

/-- submit preserves the stream invariant and appends the item to the
ghost submitted list. -/
theorem submit_inv (x : Nat) (ss : SState) (h : SInv ss) : SInv (submit x ss) := by
  obtain ⟨ht, hif, hcf, hacct, hstale⟩ := h
  have htinv2 : TInv (insertCommit (beginInsert ss.tps).1).1 :=
    insertCommit_inv (beginInsert_inv ht) (beginInsert_locked ss.tps)
  obtain ⟨hbL, hbE, hbC, hbG, hbSw, hbCc, hbCl, hbA, hbIS, hbCS⟩ :=
    beginInsert_fields ss.tps
  obtain ⟨h1, h2, h3, h4, h5, h6, h7, h8⟩ := ht
  have hclr : (beginInsert ss.tps).2.2 = decide (insSn ss.tps < ss.tps.lastEnq) := rfl
  rw [submit_eq x ss hif]
  rcases insertCommit_spec (beginInsert ss.tps).1 with ⟨hg1, hg2, hg3, heq⟩ | heq
  · rw [hbE, hbC] at hg3
    have hCE : ss.tps.lastCons = ss.tps.lastEnq := by omega
    have hT2C : (insertCommit (beginInsert ss.tps).1).1.lastCons = ss.tps.lastCons := by
      simp [heq, hbC]
    have hT2E : (insertCommit (beginInsert ss.tps).1).1.lastEnq = ss.tps.seqGen + 1 := by
      simp [heq, hbIS]
    have hT2L : (insertCommit (beginInsert ss.tps).1).1.lastIns = ss.tps.seqGen + 1 := by
      simp [heq, hbL]
    have hT2A : (insertCommit (beginInsert ss.tps).1).1.insIsA = (!ss.tps.insIsA) := by
      simp [heq, hbA]
    refine ⟨htinv2, insertCommit_unlocks _, ?_, ?_, ?_⟩
    · show (insertCommit (beginInsert ss.tps).1).1.consLocked = false
      simp [heq, hbCl, hcf]
    · show ss.submitted ++ [x] = ss.sink ++ _ ++ _
      have hlt1 : ss.tps.lastCons < ss.tps.seqGen + 1 := by omega
      by_cases hEL : ss.tps.lastEnq < ss.tps.lastIns
      · have hsn : insSn ss.tps = ss.tps.lastIns := h5 hEL
        have hnclr : ¬ (insSn ss.tps < ss.tps.lastEnq) := by omega
        rw [hCE] at hacct
        cases hb : ss.tps.insIsA <;>
          simp [Nat.lt_irrefl, hEL, insItemsAt, consItemsAt, hb] at hacct <;>
          simp [insItemsAt, consItemsAt, hT2C, hT2E, hT2L, hT2A, hclr, hb,
            hlt1, hnclr, Nat.lt_irrefl, hacct]
      · have hEL2 : ss.tps.lastEnq = ss.tps.lastIns := by omega
        rw [hCE] at hacct
        by_cases hsnlt : insSn ss.tps < ss.tps.lastEnq
        · cases hb : ss.tps.insIsA <;>
            simp [Nat.lt_irrefl, hEL, insItemsAt, consItemsAt, hb] at hacct <;>
            simp [insItemsAt, consItemsAt, hT2C, hT2E, hT2L, hT2A, hclr, hb,
              hlt1, hsnlt, Nat.lt_irrefl, hacct]
        · have hsneq : insSn ss.tps = ss.tps.lastEnq := by omega
          have hins0 : insItemsAt ss.tps ss = [] := hstale hEL2 hsneq
          cases hb : ss.tps.insIsA <;>
            simp [insItemsAt, hb] at hins0 <;>
            simp [Nat.lt_irrefl, hEL, insItemsAt, consItemsAt, hb] at hacct <;>
            simp [insItemsAt, consItemsAt, hT2C, hT2E, hT2L, hT2A, hclr, hb,
              hlt1, hsnlt, Nat.lt_irrefl, hacct, hins0]
    · intro hA hB
      exfalso
      have hsnT2 : insSn (insertCommit (beginInsert ss.tps).1).1 = consSn ss.tps := by
        rw [heq, ← hbCS]
        cases hb1 : (beginInsert ss.tps).1.insIsA <;> simp [insSn, consSn, hb1]
      rw [hsnT2, hT2E] at hB
      omega
  · have hT2C : (insertCommit (beginInsert ss.tps).1).1.lastCons = ss.tps.lastCons := by
      simp [heq, hbC]
    have hT2E : (insertCommit (beginInsert ss.tps).1).1.lastEnq = ss.tps.lastEnq := by
      simp [heq, hbE]
    have hT2L : (insertCommit (beginInsert ss.tps).1).1.lastIns = ss.tps.seqGen + 1 := by
      simp [heq, hbL]
    have hT2A : (insertCommit (beginInsert ss.tps).1).1.insIsA = ss.tps.insIsA := by
      simp [heq, hbA]
    refine ⟨htinv2, insertCommit_unlocks _, ?_, ?_, ?_⟩
    · show (insertCommit (beginInsert ss.tps).1).1.consLocked = false
      simp [heq, hbCl, hcf]
    · show ss.submitted ++ [x] = ss.sink ++ _ ++ _
      have hEg : ss.tps.lastEnq < ss.tps.seqGen + 1 := by omega
      by_cases hEL : ss.tps.lastEnq < ss.tps.lastIns
      · have hsn : insSn ss.tps = ss.tps.lastIns := h5 hEL
        have hnclr : ¬ (insSn ss.tps < ss.tps.lastEnq) := by omega
        cases hb : ss.tps.insIsA <;>
          simp [hEL, insItemsAt, consItemsAt, hb] at hacct <;>
          simp [insItemsAt, consItemsAt, hT2C, hT2E, hT2L, hT2A, hclr, hb,
            hEg, hnclr, hacct]
      · have hEL2 : ss.tps.lastEnq = ss.tps.lastIns := by omega
        by_cases hsnlt : insSn ss.tps < ss.tps.lastEnq
        · cases hb : ss.tps.insIsA <;>
            simp [hEL, insItemsAt, consItemsAt, hb] at hacct <;>
            simp [insItemsAt, consItemsAt, hT2C, hT2E, hT2L, hT2A, hclr, hb,
              hEg, hsnlt, hacct]
        · have hsneq : insSn ss.tps = ss.tps.lastEnq := by omega
          have hins0 : insItemsAt ss.tps ss = [] := hstale hEL2 hsneq
          cases hb : ss.tps.insIsA <;>
            simp [insItemsAt, hb] at hins0 <;>
            simp [hEL, insItemsAt, consItemsAt, hb] at hacct <;>
            simp [insItemsAt, consItemsAt, hT2C, hT2E, hT2L, hT2A, hclr, hb,
              hEg, hsnlt, hacct, hins0]
    · intro hA hB
      exfalso
      rw [hT2E, hT2L] at hA
      omega

/-- One try_drain iteration from an invariant state either reports an
empty queue without changing anything, or consumes: the invariant is
preserved, last_inserted_ is untouched, last_consumed_ strictly rises,
and the ghost submitted list is untouched. -/
theorem tryDrainStep_spec (ss : SState) (h : SInv ss) :
    (tryDrainStep ss = (ss, false) ∧ ss.tps.lastIns = ss.tps.lastCons) ∨
    ((tryDrainStep ss).2 = true ∧ SInv (tryDrainStep ss).1 ∧
      (tryDrainStep ss).1.tps.lastIns = ss.tps.lastIns ∧
      ss.tps.lastCons < (tryDrainStep ss).1.tps.lastCons ∧
      (tryDrainStep ss).1.submitted = ss.submitted ∧
      (tryDrainStep ss).1.sink = ss.sink ++ consItemsAt (tryConsume ss.tps).1 ss) := by
  obtain ⟨ht, hif, hcf, hacct, hstale⟩ := h
  have htinv2 : TInv (consumeCommit (tryConsume ss.tps).1).1 :=
    consumeCommit_inv (tryConsume_inv ht)
  obtain ⟨h1, h2, h3, h4, h5, h6, h7, h8⟩ := ht
  rcases tryConsume_spec ss.tps ⟨h1, h2, h3, h4, h5, h6, h7, h8⟩ hif hcf with
    ⟨hC, hr, htc⟩ | ⟨hC, hEL, hr, htc⟩ | ⟨hC, hEL, hr, htc⟩
  · right
    have hflag : crConsumed (tryConsume ss.tps).2.1 = true := by
      rw [hr]; decide
    have hstep : tryDrainStep ss = ({ ss with
        tps := (consumeCommit (tryConsume ss.tps).1).1
        sink := ss.sink ++ consItemsAt (tryConsume ss.tps).1 ss }, true) := by
      simp [tryDrainStep, hflag]
    have h7e : consSn ss.tps = ss.tps.lastEnq := h7 hC
    have htcC : (tryConsume ss.tps).1.lastCons = ss.tps.lastEnq := by
      simp [htc, h7e]
    have htcE : (tryConsume ss.tps).1.lastEnq = ss.tps.lastEnq := by simp [htc]
    have htcL : (tryConsume ss.tps).1.lastIns = ss.tps.lastIns := by simp [htc]
    have htcI : (tryConsume ss.tps).1.insLocked = false := by simp [htc, hif]
    have htcA : (tryConsume ss.tps).1.insIsA = ss.tps.insIsA := by simp [htc]
    have hccons : consItemsAt (tryConsume ss.tps).1 ss = consItemsAt ss.tps ss := by
      simp [consItemsAt, htcA]
    rw [hstep]
    rcases consumeCommit_spec (tryConsume ss.tps).1 with ⟨hx1, hx2, heq2⟩ | ⟨hx1, heq2⟩
    · rw [htcE, htcL] at hx2
      have hT2C : (consumeCommit (tryConsume ss.tps).1).1.lastCons = ss.tps.lastEnq := by
        simp [heq2, htcC]
      have hT2E : (consumeCommit (tryConsume ss.tps).1).1.lastEnq = insSn ss.tps := by
        have : insSn (tryConsume ss.tps).1 = insSn ss.tps := by
          cases hb : ss.tps.insIsA <;> simp [htc, insSn, hb]
        simp [heq2, this]
      have hT2L : (consumeCommit (tryConsume ss.tps).1).1.lastIns = ss.tps.lastIns := by
        simp [heq2, htcL]
      have hT2A : (consumeCommit (tryConsume ss.tps).1).1.insIsA = (!ss.tps.insIsA) := by
        simp [heq2, htcA]
      have hsn : insSn ss.tps = ss.tps.lastIns := h5 hx2
      refine ⟨rfl, ⟨htinv2, ?_, ?_, ?_, ?_⟩, ?_, ?_, rfl, rfl⟩
      · show (consumeCommit (tryConsume ss.tps).1).1.insLocked = false
        simp [heq2, htcI]
      · show (consumeCommit (tryConsume ss.tps).1).1.consLocked = false
        simp [heq2]
      · show ss.submitted = (ss.sink ++ consItemsAt (tryConsume ss.tps).1 ss) ++ _ ++ _
        rw [hccons]
        cases hb : ss.tps.insIsA <;>
          simp [hC, hx2, insItemsAt, consItemsAt, hb] at hacct <;>
          simp [insItemsAt, consItemsAt, hT2C, hT2E, hT2L, hT2A, hb, hsn, hx2,
            Nat.lt_irrefl, hacct]
      · intro hA hB
        exfalso
        have hsnT2 : insSn (consumeCommit (tryConsume ss.tps).1).1 = consSn ss.tps := by
          rw [heq2]
          cases hb : ss.tps.insIsA <;> simp [htc, insSn, consSn, hb]
        rw [hsnT2, hT2E] at hB
        omega
      · simp [hT2L]
      · simp [hT2C]; omega
    · have hx2 : ¬ ss.tps.lastEnq < ss.tps.lastIns := by
        rcases hx1 with hx | hx
        · rw [htcI] at hx; cases hx
        · rw [htcE, htcL] at hx; exact hx
      have hEL2 : ss.tps.lastEnq = ss.tps.lastIns := by omega
      have hT2C : (consumeCommit (tryConsume ss.tps).1).1.lastCons = ss.tps.lastEnq := by
        simp [heq2, htcC]
      have hT2E : (consumeCommit (tryConsume ss.tps).1).1.lastEnq = ss.tps.lastEnq := by
        simp [heq2, htcE]
      have hT2L : (consumeCommit (tryConsume ss.tps).1).1.lastIns = ss.tps.lastIns := by
        simp [heq2, htcL]
      have hT2A : (consumeCommit (tryConsume ss.tps).1).1.insIsA = ss.tps.insIsA := by
        simp [heq2, htcA]
      refine ⟨rfl, ⟨htinv2, ?_, ?_, ?_, ?_⟩, ?_, ?_, rfl, rfl⟩
      · show (consumeCommit (tryConsume ss.tps).1).1.insLocked = false
        simp [heq2, htcI]
      · show (consumeCommit (tryConsume ss.tps).1).1.consLocked = false
        simp [heq2]
      · show ss.submitted = (ss.sink ++ consItemsAt (tryConsume ss.tps).1 ss) ++ _ ++ _
        rw [hccons]
        cases hb : ss.tps.insIsA <;>
          simp [hC, hx2, insItemsAt, consItemsAt, hb] at hacct <;>
          simp [insItemsAt, consItemsAt, hT2C, hT2E, hT2L, hT2A, hb, hx2,
            Nat.lt_irrefl, hacct]
      · intro hA hB
        have hsnT2 : insSn (consumeCommit (tryConsume ss.tps).1).1 = insSn ss.tps := by
          rw [heq2]
          cases hb : ss.tps.insIsA <;> simp [htc, insSn, hb]
        rw [hsnT2, hT2E] at hB
        have hins0 : insItemsAt ss.tps ss = [] := hstale hEL2 hB
        cases hb : ss.tps.insIsA <;>
          simp [insItemsAt, hb] at hins0 <;>
          simp [insItemsAt, hT2A, hb, hins0]
      · simp [hT2L]
      · simp [hT2C]; omega
  · right
    have hflag : crConsumed (tryConsume ss.tps).2.1 = true := by
      rw [hr]; decide
    have hstep : tryDrainStep ss = ({ ss with
        tps := (consumeCommit (tryConsume ss.tps).1).1
        sink := ss.sink ++ consItemsAt (tryConsume ss.tps).1 ss }, true) := by
      simp [tryDrainStep, hflag]
    have hsn : insSn ss.tps = ss.tps.lastIns := h5 hEL
    have htcC : (tryConsume ss.tps).1.lastCons = ss.tps.lastIns := by
      simp [htc, hsn]
    have htcE : (tryConsume ss.tps).1.lastEnq = ss.tps.lastIns := by
      simp [htc, hsn]
    have htcL : (tryConsume ss.tps).1.lastIns = ss.tps.lastIns := by simp [htc]
    have htcI : (tryConsume ss.tps).1.insLocked = false := by simp [htc, hif]
    have htcA : (tryConsume ss.tps).1.insIsA = (!ss.tps.insIsA) := by simp [htc]
    have hccons : consItemsAt (tryConsume ss.tps).1 ss = insItemsAt ss.tps ss := by
      cases hb : ss.tps.insIsA <;> simp [consItemsAt, insItemsAt, htcA, hb]
    rw [hstep]
    rcases consumeCommit_spec (tryConsume ss.tps).1 with ⟨hx1, hx2, heq2⟩ | ⟨hx1, heq2⟩
    · rw [htcE, htcL] at hx2
      exact absurd hx2 (Nat.lt_irrefl _)
    · have hT2C : (consumeCommit (tryConsume ss.tps).1).1.lastCons = ss.tps.lastIns := by
        simp [heq2, htcC]
      have hT2E : (consumeCommit (tryConsume ss.tps).1).1.lastEnq = ss.tps.lastIns := by
        simp [heq2, htcE]
      have hT2L : (consumeCommit (tryConsume ss.tps).1).1.lastIns = ss.tps.lastIns := by
        simp [heq2, htcL]
      have hT2A : (consumeCommit (tryConsume ss.tps).1).1.insIsA = (!ss.tps.insIsA) := by
        simp [heq2, htcA]
      refine ⟨rfl, ⟨htinv2, ?_, ?_, ?_, ?_⟩, ?_, ?_, rfl, rfl⟩
      · show (consumeCommit (tryConsume ss.tps).1).1.insLocked = false
        simp [heq2, htcI]
      · show (consumeCommit (tryConsume ss.tps).1).1.consLocked = false
        simp [heq2]
      · show ss.submitted = (ss.sink ++ consItemsAt (tryConsume ss.tps).1 ss) ++ _ ++ _
        rw [hccons]
        cases hb : ss.tps.insIsA <;>
          simp [hC, hEL, insItemsAt, consItemsAt, hb, Nat.lt_irrefl] at hacct <;>
          simp [insItemsAt, consItemsAt, hT2C, hT2E, hT2L, hT2A, hb,
            Nat.lt_irrefl, hacct]
      · intro hA hB
        exfalso
        have hsnT2 : insSn (consumeCommit (tryConsume ss.tps).1).1 = consSn ss.tps := by
          rw [heq2]
          cases hb : ss.tps.insIsA <;> simp [htc, insSn, consSn, hb]
        rw [hsnT2, hT2E] at hB
        omega
      · simp [hT2L]
      · simp [hT2C]; omega
  · left
    have hflag : crConsumed (tryConsume ss.tps).2.1 = false := by
      rw [hr]; decide
    constructor
    · simp [tryDrainStep, hflag, htc]
    · omega

/-- With fuel exceeding the distance between last_inserted_ and
last_consumed_, the try_drain loop reaches an empty queue, preserves the
invariant, and loses no submitted item. -/
theorem tryDrainF_drains (fuel : Nat) (ss : SState) (h : SInv ss)
    (hf : ss.tps.lastIns - ss.tps.lastCons < fuel) :
    SInv (tryDrainF fuel ss).1 ∧ tpdEmpty (tryDrainF fuel ss).1.tps = true ∧
    (tryDrainF fuel ss).1.submitted = ss.submitted := by
  induction fuel generalizing ss with
  | zero => omega
  | succ n ih =>
    rcases tryDrainStep_spec ss h with ⟨heq, hLC⟩ | ⟨hflag, hinv, hL, hCgt, hsub, hsink⟩
    · have : tryDrainF (n + 1) ss = (ss, false) := by
        simp [tryDrainF, heq]
      rw [this]
      refine ⟨h, ?_, rfl⟩
      simp [tpdEmpty, hLC]
    · have hle : (tryDrainStep ss).1.tps.lastCons ≤ (tryDrainStep ss).1.tps.lastIns :=
        hinv.tinv.h1.trans hinv.tinv.h2
      have hf2 : (tryDrainStep ss).1.tps.lastIns - (tryDrainStep ss).1.tps.lastCons < n := by
        omega
      have hrec := ih (tryDrainStep ss).1 hinv hf2
      have : tryDrainF (n + 1) ss = ((tryDrainF n (tryDrainStep ss).1).1, true) := by
        simp [tryDrainF, hflag]
      rw [this]
      exact ⟨hrec.1, hrec.2.1, by rw [hrec.2.2, hsub]⟩

/-- stream::try_drain drains the queue empty, keeps the invariant, and
loses no submitted item. -/
theorem tryDrain_drains (ss : SState) (h : SInv ss) :
    SInv (tryDrain ss).1 ∧ tpdEmpty (tryDrain ss).1.tps = true ∧
    (tryDrain ss).1.submitted = ss.submitted := by
  unfold tryDrain
  exact tryDrainF_drains _ ss h (by omega)

/-- Each stream operation preserves the stream invariant. -/
theorem stepS_inv (ss : SState) (op : SOp) (h : SInv ss) : SInv (stepS ss op) := by
  cases op with
  | sub x => exact submit_inv x ss h
  | drainStep =>
    rcases tryDrainStep_spec ss h with ⟨heq, hLC⟩ | ⟨hflag, hinv, hrest⟩
    · show SInv (tryDrainStep ss).1
      rw [heq]
      exact h
    · exact hinv

theorem foldl_stepS_inv (ops : List SOp) (ss : SState) (h : SInv ss) :
    SInv (ops.foldl stepS ss) := by
  induction ops generalizing ss with
  | nil => exact h
  | cons op rest ih => exact ih (stepS ss op) (stepS_inv ss op h)

/-- Every state reachable from the fresh stream by submits and drain
iterations satisfies the stream invariant. -/
theorem execS_inv (ops : List SOp) : SInv (execS ops) :=
  foldl_stepS_inv ops initS initS_inv

/-- In an invariant state with an empty queue, the sink holds exactly the
submitted items. -/
theorem sinv_empty_sink (ss : SState) (h : SInv ss)
    (he : tpdEmpty ss.tps = true) : ss.sink = ss.submitted := by
  obtain ⟨ht, hif, hcf, hacct, hstale⟩ := h
  have hLC : ss.tps.lastIns = ss.tps.lastCons := by
    simpa [tpdEmpty] using he
  have h1 := ht.h1
  have h2 := ht.h2
  rw [hacct, if_neg (by omega), if_neg (by omega)]
  simp

/-- The destructor from any invariant state: it returns (the loop
terminates), the stream is removed from the service registry, the queue
is empty on return, and the sink holds every submitted item. -/
theorem streamDtor_drains (reg : List Nat) (sid : Nat) (ss : SState) (h : SInv ss) :
    ∃ out, streamDtor reg sid ss = some out ∧ out.1 = removeOne reg sid ∧
      tpdEmpty out.2.tps = true ∧ out.2.sink = out.2.submitted ∧
      out.2.submitted = ss.submitted := by
  by_cases hE : tpdEmpty ss.tps = true
  · refine ⟨(removeOne reg sid, ss), ?_, rfl, hE, sinv_empty_sink ss h hE, rfl⟩
    simp [streamDtor, dtorLoop, hE]
  · obtain ⟨hinv2, hE2, hsub2⟩ := tryDrain_drains ss h
    refine ⟨(removeOne reg sid, (tryDrain ss).1), ?_, rfl, hE2,
      sinv_empty_sink _ hinv2 hE2, hsub2⟩
    simp [streamDtor, dtorLoop, hE, hE2]

/-- C2: destroying a stream first deregisters it from its service
(the registry entry is removed) and then drains synchronously until the
two-page swap queue is empty (last_inserted_ = last_consumed_); the
destructor loop terminates from every reachable state, every work item
submitted before destruction has reached the sink when it returns, and
only then is the stream state released (the final state is produced only
after the loop has exited on an empty queue). -/
theorem c2_dtor_no_lost_work (ops : List SOp) (reg : List Nat) (sid : Nat) :
    ∃ out, streamDtor reg sid (execS ops) = some out ∧
      out.1 = removeOne reg sid ∧
      tpdEmpty out.2.tps = true ∧
      out.2.sink = out.2.submitted ∧
      out.2.submitted = (execS ops).submitted :=
  streamDtor_drains reg sid (execS ops) (execS_inv ops)

end Iostreams
